import Mathlib

/-!
Verification of the linux-generic event scheduler
(`src/platform/linux-generic/odp_schedule.c`).

The C code is shallowly embedded: machine integers are `Nat` with explicit
`% 2^w` where overflow can occur (`uint8_t` priority masks, `uint32_t`
reference counts, `uint64_t` ordered-lock counters), pointers become
`Option`-valued fields, spin loops become fuel-indexed searches over the
externally observed sequence of atomic loads, and the thread-shared
substrate (lane queues, source queues, thread masks) is explicit state.
-/

namespace OdpSched

/-! ## Priority fabric (`pri_set` / `pri_clr`)

`sched->pri_mask[prio]` is a `uint8_t` bitmask, `sched->pri_count[prio][id]`
a `uint32_t` reference count; `QUEUES_PER_PRIO = 4`, so every lane id
produced by `pri_id_queue`/`pri_id_pktio` satisfies `id < 4`. -/

/-- State of the priority fabric: `pri_mask[prio]` and `pri_count[prio][id]`. -/
structure PriSched where
  pri_mask : Nat → Nat
  pri_count : Nat → Nat → Nat

/-- Zero-initialised fabric (from `odp_schedule_init_global`: `memset 0`). -/
def pri_init : PriSched := ⟨fun _ => 0, fun _ _ => 0⟩

/-- One fabric operation: `pri_set id prio` (attach) or `pri_clr id prio`
(detach), argument order as in the C functions. -/
inductive PriOp where
  | set (id prio : Nat)
  | clr (id prio : Nat)

/-- `pri_set`: `pri_mask[prio] |= 1 << id` (stored in a `uint8_t`, hence
`% 2^8`) and `pri_count[prio][id]++` (a `uint32_t`, hence `% 2^32`).
`pri_clr`: `pri_count[prio][id]--`; when the count reaches zero,
`pri_mask[prio] &= (uint8_t)(~(1 << id))`. -/
def pri_step : PriSched → PriOp → PriSched
  | s, .set id prio =>
    { pri_mask := fun p =>
        if p = prio then (s.pri_mask p ||| (1 <<< id)) % 2 ^ 8 else s.pri_mask p,
      pri_count := fun p i =>
        if p = prio then
          (if i = id then (s.pri_count p i + 1) % 2 ^ 32 else s.pri_count p i)
        else s.pri_count p i }
  | s, .clr id prio =>
    let c := (s.pri_count prio id + (2 ^ 32 - 1)) % 2 ^ 32
    { pri_mask := fun p =>
        if p = prio then
          (if c = 0 then s.pri_mask p &&& ((2 ^ 8 - 1) ^^^ (1 <<< id)) else s.pri_mask p)
        else s.pri_mask p,
      pri_count := fun p i =>
        if p = prio then (if i = id then c else s.pri_count p i) else s.pri_count p i }

/-- An operation is well-formed when its lane id is in range (ids come from
`pri_id_queue`/`pri_id_pktio`, which mask with `QUEUES_PER_PRIO - 1 = 3`),
a detach has a matching earlier attach (the count is positive), and the
`uint32_t` count cannot overflow on attach. -/
def pri_ok (s : PriSched) : PriOp → Bool
  | .set id prio => decide (id < 4) && decide (s.pri_count prio id + 1 < 2 ^ 32)
  | .clr id prio => decide (id < 4) && decide (0 < s.pri_count prio id)

/-- A sequence of fabric operations is valid when each operation is
well-formed in the state it executes in. -/
def pri_valid : PriSched → List PriOp → Bool
  | _, [] => true
  | s, op :: rest => pri_ok s op && pri_valid (pri_step s op) rest

/-- Run a sequence of fabric operations. -/
def pri_run : PriSched → List PriOp → PriSched
  | s, [] => s
  | s, op :: rest => pri_run (pri_step s op) rest

/-- The fabric invariant: each mask bit is set iff the matching count is
positive, counts fit in `uint32_t`, and lanes `≥ 4` are untouched. -/
def PriInv (s : PriSched) : Prop :=
  ∀ p i, ((s.pri_mask p).testBit i ↔ 0 < s.pri_count p i) ∧
    s.pri_count p i < 2 ^ 32 ∧ (4 ≤ i → s.pri_count p i = 0 ∧ (s.pri_mask p).testBit i = false)

theorem pri_init_inv : PriInv pri_init := by
  intro p i
  simp [pri_init, PriInv, Nat.testBit]

theorem pri_decr_eq (c : Nat) (h1 : 0 < c) (h2 : c < 2 ^ 32) :
    (c + (2 ^ 32 - 1)) % 2 ^ 32 = c - 1 := by
  have h : c + (2 ^ 32 - 1) = (c - 1) + 1 * 2 ^ 32 := by omega
  rw [h, Nat.add_mul_mod_self_right, Nat.mod_eq_of_lt (by omega)]

theorem pri_step_inv (s : PriSched) (op : PriOp)
    (hs : PriInv s) (hop : pri_ok s op = true) : PriInv (pri_step s op) := by
  cases op with
  | set id prio =>
    simp only [pri_ok, Bool.and_eq_true, decide_eq_true_eq] at hop
    obtain ⟨hid, hcnt⟩ := hop
    intro p i
    obtain ⟨hiff, hlt, hhi⟩ := hs p i
    simp only [pri_step]
    by_cases hp : p = prio
    · subst hp
      by_cases hi : i = id
      · subst hi
        simp only [if_pos rfl, eq_self_iff_true, if_true]
        rw [Nat.mod_eq_of_lt hcnt]
        have h8 : i < 8 := by omega
        constructor
        · rw [Nat.testBit_mod_two_pow, Nat.testBit_lor, Nat.one_shiftLeft,
            Nat.testBit_two_pow_self]
          simp [h8]
        · exact ⟨by omega, fun h4 => absurd hid (by omega)⟩
      · simp only [if_pos rfl, eq_self_iff_true, if_true, if_neg hi]
        rw [Nat.testBit_mod_two_pow, Nat.testBit_lor, Nat.one_shiftLeft,
          Nat.testBit_two_pow]
        have hne : (decide (id = i)) = false := by
          simp only [decide_eq_false_iff_not]
          exact fun he => hi he.symm
        refine ⟨?_, hlt, ?_⟩
        · by_cases h8 : i < 8
          · simp [h8, hne, hiff]
          · have h4 : 4 ≤ i := by omega
            simp [h8, (hhi h4).1]
        · intro h4
          refine ⟨(hhi h4).1, ?_⟩
          simp [hne, (hhi h4).2]
    · simp only [if_neg hp]
      exact ⟨hiff, hlt, hhi⟩
  | clr id prio =>
    simp only [pri_ok, Bool.and_eq_true, decide_eq_true_eq] at hop
    obtain ⟨hid, hpos⟩ := hop
    intro p i
    obtain ⟨hiff, hlt, hhi⟩ := hs p i
    have hclt := (hs prio id).2.1
    have hdecr : (s.pri_count prio id + (2 ^ 32 - 1)) % 2 ^ 32 = s.pri_count prio id - 1 :=
      pri_decr_eq _ hpos hclt
    simp only [pri_step, hdecr]
    by_cases hp : p = prio
    · subst hp
      by_cases hi : i = id
      · subst hi
        simp only [if_pos rfl, eq_self_iff_true, if_true]
        by_cases hz : s.pri_count p i - 1 = 0
        · simp only [if_pos hz, eq_self_iff_true, if_true]
          rw [Nat.testBit_and, Nat.testBit_xor, Nat.one_shiftLeft,
            Nat.testBit_two_pow_sub_one, Nat.testBit_two_pow_self]
          have h8 : i < 8 := by omega
          simp [hz, h8]
        · simp only [if_neg hz]
          refine ⟨?_, by omega, fun h4 => absurd hid (by omega)⟩
          constructor
          · intro _; omega
          · intro _; exact hiff.mpr hpos
      · simp only [if_pos rfl, eq_self_iff_true, if_true, if_neg hi]
        by_cases hz : s.pri_count p id - 1 = 0
        · simp only [if_pos hz, eq_self_iff_true, if_true]
          rw [Nat.testBit_and, Nat.testBit_xor, Nat.one_shiftLeft,
            Nat.testBit_two_pow_sub_one, Nat.testBit_two_pow]
          have hne : (decide (id = i)) = false := by
            simp only [decide_eq_false_iff_not]
            exact fun he => hi he.symm
          refine ⟨?_, hlt, ?_⟩
          · by_cases h8 : i < 8
            · simp [h8, hne, hiff]
            · have h4 : 4 ≤ i := by omega
              simp [h8, (hhi h4).1, (hhi h4).2]
          · intro h4
            refine ⟨(hhi h4).1, ?_⟩
            simp [(hhi h4).2]
        · simp only [if_neg hz]
          exact ⟨hiff, hlt, hhi⟩
    · simp only [if_neg hp]
      exact ⟨hiff, hlt, hhi⟩

theorem pri_run_inv (l : List PriOp) : ∀ s : PriSched,
    PriInv s → pri_valid s l = true → PriInv (pri_run s l) := by
  induction l with
  | nil => intro s hs _; exact hs
  | cons op rest ih =>
    intro s hs hv
    simp only [pri_valid, Bool.and_eq_true] at hv
    exact ih _ (pri_step_inv s op hs hv.1) hv.2

theorem pri_valid_take (l : List PriOp) : ∀ (s : PriSched) (k : Nat),
    pri_valid s l = true → pri_valid s (l.take k) = true := by
  induction l with
  | nil => intro s k _; simp [pri_valid]
  | cons op rest ih =>
    intro s k hv
    cases k with
    | zero => simp [pri_valid]
    | succ k =>
      simp only [pri_valid, Bool.and_eq_true] at hv ⊢
      exact ⟨hv.1, ih _ k hv.2⟩

/-- C1: For every valid sequence of attach/detach (`pri_set`/`pri_clr`)
operations on the priority fabric, after each operation (i.e. after every
prefix of the sequence) the bit for `(p, id)` is set in `pri_mask[p]` iff
`pri_count[p][id] > 0`. -/
theorem pri_mask_iff_pri_count (ops : List PriOp) (k p i : Nat)
    (hv : pri_valid pri_init ops = true) :
    ((pri_run pri_init (ops.take k)).pri_mask p).testBit i ↔
      0 < (pri_run pri_init (ops.take k)).pri_count p i :=
  (pri_run_inv (ops.take k) pri_init pri_init_inv (pri_valid_take ops pri_init k hv) p i).1

/-- Witness for C1: a concrete valid sequence (attach lane 2 of priority 0,
then detach it), checked after the first operation. -/
theorem pri_mask_iff_pri_count_witness :
    pri_valid pri_init [PriOp.set 2 0, PriOp.clr 2 0] = true ∧
      (((pri_run pri_init ([PriOp.set 2 0, PriOp.clr 2 0].take 1)).pri_mask 0).testBit 2 ↔
        0 < (pri_run pri_init ([PriOp.set 2 0, PriOp.clr 2 0].take 1)).pri_count 0 2) :=
  ⟨by decide, pri_mask_iff_pri_count [PriOp.set 2 0, PriOp.clr 2 0] 1 0 2 (by decide)⟩

/-! ## Ordered-lock primitive (`odp_schedule_order_lock` / `odp_schedule_order_unlock`)

The origin queue entry carries `lock_count` and the atomic `uint64_t`
counters `sync_out[]`; the thread-local context carries the event's
`sync[]` numbers.  The spin loop's successive atomic loads of
`sync_out[lock_index]` (which other threads increment concurrently) are
modelled as an external observation sequence `loads`, with `loads 0`
constrained to the in-state value; the loop is a fuel-indexed search. -/

/-- Origin queue entry fields used by the ordered-lock primitive. -/
structure OriginQe where
  lock_count : Nat
  sync_out : Nat → Nat

/-- Thread-local ordered-context state used by the ordered-lock primitive:
`sched_local.origin_qe` (with the origin queue's own state inlined) and
`sched_local.sync[]`. -/
structure OrdLocal where
  origin_qe : Option OriginQe
  sync : Nat → Nat

/-- Result of a call to `odp_schedule_order_lock`: returned without an
ordered context or with an out-of-range index (`noop`), returned from the
spin loop having observed a value of `sync_out[lock_index]` (`inOrder v`),
or still spinning after `fuel` loads (`spinning`). -/
inductive LockResult where
  | noop
  | inOrder (v : Nat)
  | spinning
deriving DecidableEq

/-- The spin loop `while (sync != sync_out) { odp_spin(); reload; }`:
return the first observed value equal to `sync`, within `fuel` loads. -/
def spin_to (sync : Nat) (loads : Nat → Nat) : Nat → Nat → Option Nat
  | _, 0 => none
  | n, fuel + 1 => if loads n = sync then some (loads n) else spin_to sync loads (n + 1) fuel

/-- `odp_schedule_order_lock(lock_index)`: no-op without an ordered context
or when `lock_index >= lock_count`; otherwise spin until the loaded
`sync_out[lock_index]` equals `sched_local.sync[lock_index]`.  The first
load reads the in-state counter, later loads come from `loads`. -/
def odp_schedule_order_lock (l : OrdLocal) (lock_index : Nat)
    (loads : Nat → Nat) (fuel : Nat) : LockResult :=
  match l.origin_qe with
  | none => .noop
  | some q =>
    if lock_index ≥ q.lock_count then .noop
    else
      match spin_to (l.sync lock_index)
          (fun n => if n = 0 then q.sync_out lock_index else loads n) 0 fuel with
      | some v => .inOrder v
      | none => .spinning

/-- `odp_schedule_order_unlock(lock_index)`: no-op without an ordered
context or when `lock_index >= lock_count`; otherwise
`odp_atomic_fetch_inc_u64(&sync_out[lock_index])` (a `uint64_t`, hence
`% 2^64`). -/
def odp_schedule_order_unlock (l : OrdLocal) (lock_index : Nat) : OrdLocal :=
  match l.origin_qe with
  | none => l
  | some q =>
    if lock_index ≥ q.lock_count then l
    else
      { l with origin_qe := some { q with sync_out :=
          (fun j => if j = lock_index then (q.sync_out lock_index + 1) % 2 ^ 64
            else q.sync_out j) } }

theorem spin_to_eq (sync : Nat) (loads : Nat → Nat) :
    ∀ (fuel n v : Nat), spin_to sync loads n fuel = some v → v = sync := by
  intro fuel
  induction fuel with
  | zero => intro n v h; simp [spin_to] at h
  | succ fuel ih =>
    intro n v h
    simp only [spin_to] at h
    by_cases hl : loads n = sync
    · rw [if_pos hl] at h
      cases h
      exact hl
    · rw [if_neg hl] at h
      exact ih (n + 1) v h

/-- C3: `order_lock(i)` returns from its spin loop only when the observed
`sync_out[i]` equals `sync[i]`; after `order_unlock(i)` (on a counter that
does not wrap the `uint64_t`) `sync_out[i]` is strictly greater than
before; and both calls are no-ops when no ordered context is held or when
`i ≥ lock_count`. -/
theorem order_lock_unlock_spec (l : OrdLocal) (lock_index : Nat)
    (loads : Nat → Nat) (fuel : Nat) :
    (∀ v, odp_schedule_order_lock l lock_index loads fuel = .inOrder v →
      v = l.sync lock_index) ∧
    (∀ q, l.origin_qe = some q → lock_index < q.lock_count →
      q.sync_out lock_index < 2 ^ 64 - 1 →
      ∃ q2, (odp_schedule_order_unlock l lock_index).origin_qe = some q2 ∧
        q.sync_out lock_index < q2.sync_out lock_index) ∧
    (l.origin_qe = none →
      odp_schedule_order_lock l lock_index loads fuel = .noop ∧
      odp_schedule_order_unlock l lock_index = l) ∧
    (∀ q, l.origin_qe = some q → q.lock_count ≤ lock_index →
      odp_schedule_order_lock l lock_index loads fuel = .noop ∧
      odp_schedule_order_unlock l lock_index = l) := by
  refine ⟨?_, ?_, ?_, ?_⟩
  · intro v h
    cases hq : l.origin_qe with
    | none => simp [odp_schedule_order_lock, hq] at h
    | some q =>
      simp only [odp_schedule_order_lock, hq] at h
      by_cases hge : lock_index ≥ q.lock_count
      · rw [if_pos hge] at h
        exact absurd h (by simp)
      · rw [if_neg hge] at h
        cases hs : spin_to (l.sync lock_index)
            (fun n => if n = 0 then q.sync_out lock_index else loads n) 0 fuel with
        | none => rw [hs] at h; exact absurd h (by simp)
        | some w =>
          rw [hs] at h
          cases h
          exact spin_to_eq _ _ fuel 0 _ hs
  · intro q hq hlt hov
    simp only [odp_schedule_order_unlock, hq]
    rw [if_neg (by omega)]
    refine ⟨_, rfl, ?_⟩
    simp only [if_pos rfl, eq_self_iff_true, if_true]
    rw [Nat.mod_eq_of_lt (by omega)]
    omega
  · intro hq
    simp only [odp_schedule_order_lock, odp_schedule_order_unlock, hq]
    constructor <;> trivial
  · intro q hq hge
    simp only [odp_schedule_order_lock, odp_schedule_order_unlock, hq]
    rw [if_pos (by omega), if_pos (by omega)]
    constructor <;> trivial

/-- Concrete ordered context for the C3 witness: one ordered lock,
`sync_out[0] = 0`, event sequence numbers `sync[i] = 0`. -/
def ord_witness_local : OrdLocal :=
  ⟨some ⟨1, fun _ => 0⟩, fun _ => 0⟩

/-- Concrete ordered-lock-free context for the C3 witness. -/
def ord_witness_none : OrdLocal := ⟨none, fun _ => 0⟩

/-- Witness for C3: the spin loop returns at once (the counter already
equals `sync[0]`), the unlock strictly increases `sync_out[0]`, and the
calls are no-ops without a context / with an out-of-range index. -/
theorem order_lock_unlock_spec_witness :
    (odp_schedule_order_lock ord_witness_local 0 (fun _ => 1) 1 = .inOrder 0 →
      (0 : Nat) = ord_witness_local.sync 0) ∧
    (∃ q2, (odp_schedule_order_unlock ord_witness_local 0).origin_qe = some q2 ∧
      (0 : Nat) < q2.sync_out 0) ∧
    (odp_schedule_order_lock ord_witness_none 0 (fun _ => 1) 1 = .noop ∧
      odp_schedule_order_unlock ord_witness_none 0 = ord_witness_none) ∧
    (odp_schedule_order_lock ord_witness_local 5 (fun _ => 1) 1 = .noop ∧
      odp_schedule_order_unlock ord_witness_local 5 = ord_witness_local) :=
  ⟨fun h => (order_lock_unlock_spec ord_witness_local 0 (fun _ => 1) 1).1 0 h,
   (order_lock_unlock_spec ord_witness_local 0 (fun _ => 1) 1).2.1
     ⟨1, fun _ => 0⟩ rfl (by decide) (by norm_num),
   (order_lock_unlock_spec ord_witness_none 0 (fun _ => 1) 1).2.2.1 rfl,
   (order_lock_unlock_spec ord_witness_local 5 (fun _ => 1) 1).2.2.2
     ⟨1, fun _ => 0⟩ rfl (by decide)⟩

/-! ## Schedule groups

`sched->sched_grp[]` is a table of `{ char name[N]; odp_thrmask_t *mask }`
slots, indexed `0 .. ODP_CONFIG_SCHED_GRPS - 1`; named groups start at
`_ODP_SCHED_GROUP_NAMED`.  Stored names are modelled as the `List Char` of
characters before the terminating NUL (`strncpy(dst, src, N - 1)` into a
zeroed array stores `src.take (N - 1)`); thread masks are `Nat` bitmasks.
Group ids are `Int` as in the C `odp_schedule_group_t`. -/

/-- Modelled from the spec: the three well-known groups ALL, WORKER,
CONTROL occupy indices `0 .. W - 1` and `_ODP_SCHED_GROUP_NAMED =
ODP_SCHED_GROUP_CONTROL + 1` (the well-known indices come from the ODP
headers, which are not part of this source tree; the spec fixes the
well-known count `W = 3`). -/
def SCHED_GROUP_NAMED : Nat := 3

/-- One slot of `sched->sched_grp[]`. -/
structure GrpSlot where
  name : List Char
  mask : Nat
deriving DecidableEq

/-- Empty slot: zeroed name, zeroed mask. -/
def grp_free : GrpSlot := ⟨[], 0⟩

/-- The validity test shared by `group_destroy`/`join`/`leave`/`thrmask`:
`group < ODP_CONFIG_SCHED_GRPS && group >= _ODP_SCHED_GROUP_NAMED &&
sched_grp[group].name[0] != 0`. -/
def grp_ok (tbl : List GrpSlot) (group : Int) : Bool :=
  decide (group < (tbl.length : Int)) &&
    decide ((SCHED_GROUP_NAMED : Int) ≤ group) &&
    decide ((tbl.getD group.toNat grp_free).name ≠ [])

/-- Scan `i, i+1, ...` (`rem` slots) for the first free slot, as the
`for` loop of `odp_schedule_group_create`. -/
def grp_scan_free (tbl : List GrpSlot) : Nat → Nat → Option Nat
  | 0, _ => none
  | rem + 1, i =>
    if (tbl.getD i grp_free).name = [] then some i
    else grp_scan_free tbl rem (i + 1)

/-- `odp_schedule_group_create(name, mask)`: scan named slots for the
first free one; store the name truncated to `N - 1` characters
(`strncpy`) and copy the mask; return the slot index, or none
(`ODP_SCHED_GROUP_INVALID`) when no slot is free. -/
def odp_schedule_group_create (N : Nat) (name : List Char) (mask : Nat)
    (tbl : List GrpSlot) : Option Nat × List GrpSlot :=
  match grp_scan_free tbl (tbl.length - SCHED_GROUP_NAMED) SCHED_GROUP_NAMED with
  | some i => (some i, tbl.set i ⟨name.take (N - 1), mask⟩)
  | none => (none, tbl)

/-- Scan `i, i+1, ...` (`rem` slots) for the first slot whose stored name
equals `name` (`strcmp == 0`), as the loop of `odp_schedule_group_lookup`. -/
def grp_scan_name (tbl : List GrpSlot) (name : List Char) : Nat → Nat → Option Nat
  | 0, _ => none
  | rem + 1, i =>
    if (tbl.getD i grp_free).name = name then some i
    else grp_scan_name tbl name rem (i + 1)

/-- `odp_schedule_group_lookup(name)`: first named slot whose stored name
matches, or none (`ODP_SCHED_GROUP_INVALID`). -/
def odp_schedule_group_lookup (name : List Char) (tbl : List GrpSlot) : Option Nat :=
  grp_scan_name tbl name (tbl.length - SCHED_GROUP_NAMED) SCHED_GROUP_NAMED

/-- `odp_schedule_group_destroy(group)`: on a valid occupied named slot,
zero the mask and the name and return 0; otherwise return -1. -/
def odp_schedule_group_destroy (group : Int) (tbl : List GrpSlot) :
    Int × List GrpSlot :=
  if grp_ok tbl group then (0, tbl.set group.toNat grp_free)
  else (-1, tbl)

/-- `odp_schedule_group_join(group, mask)`: on a valid occupied named slot,
`thrmask_or` the given mask into the group mask and return 0; otherwise
return -1. -/
def odp_schedule_group_join (group : Int) (mask : Nat) (tbl : List GrpSlot) :
    Int × List GrpSlot :=
  if grp_ok tbl group then
    let s := tbl.getD group.toNat grp_free
    (0, tbl.set group.toNat ⟨s.name, s.mask ||| mask⟩)
  else (-1, tbl)

/-- `odp_schedule_group_leave(group, mask)`: on a valid occupied named
slot, `thrmask_xor` the given mask with `sched_mask_all` (here the bitmask
`allmask`) and `thrmask_and` the result into the group mask, returning 0;
otherwise return -1. -/
def odp_schedule_group_leave (group : Int) (mask : Nat) (allmask : Nat)
    (tbl : List GrpSlot) : Int × List GrpSlot :=
  if grp_ok tbl group then
    let s := tbl.getD group.toNat grp_free
    (0, tbl.set group.toNat ⟨s.name, s.mask &&& (mask ^^^ allmask)⟩)
  else (-1, tbl)

/-- `odp_schedule_group_thrmask(group, out)`: on a valid occupied named
slot, snapshot the mask and return 0; otherwise return -1 (the out
parameter is the second component, `none` when not written). -/
def odp_schedule_group_thrmask (group : Int) (tbl : List GrpSlot) :
    Int × Option Nat :=
  if grp_ok tbl group then (0, some (tbl.getD group.toNat grp_free).mask)
  else (-1, none)

/-! ### C10: rejection of well-known group ids -/

/-- C10: `group_destroy`, `group_join`, `group_leave` and `group_thrmask`
reject the well-known ids ALL, WORKER, CONTROL (0, 1, 2, below the first
named slot) with -1, and succeed (return 0) exactly for ids in the named
range whose slot holds a non-empty name. -/
theorem group_wellknown_reject (tbl : List GrpSlot) (group : Int)
    (mask allmask : Nat) (h : group = 0 ∨ group = 1 ∨ group = 2) :
    ((odp_schedule_group_destroy group tbl).1 = -1 ∧
     (odp_schedule_group_join group mask tbl).1 = -1 ∧
     (odp_schedule_group_leave group mask allmask tbl).1 = -1 ∧
     (odp_schedule_group_thrmask group tbl).1 = -1) ∧
    (∀ g : Int,
      ((odp_schedule_group_destroy g tbl).1 = 0 ↔ grp_ok tbl g = true) ∧
      ((odp_schedule_group_join g mask tbl).1 = 0 ↔ grp_ok tbl g = true) ∧
      ((odp_schedule_group_leave g mask allmask tbl).1 = 0 ↔ grp_ok tbl g = true) ∧
      ((odp_schedule_group_thrmask g tbl).1 = 0 ↔ grp_ok tbl g = true)) := by
  have hnot : grp_ok tbl group = false := by
    have : ¬ ((SCHED_GROUP_NAMED : Int) ≤ group) := by
      rcases h with h | h | h <;> simp [h, SCHED_GROUP_NAMED]
    simp [grp_ok, this]
  constructor
  · refine ⟨?_, ?_, ?_, ?_⟩ <;>
      simp [odp_schedule_group_destroy, odp_schedule_group_join,
        odp_schedule_group_leave, odp_schedule_group_thrmask, hnot]
  · intro g
    by_cases hg : grp_ok tbl g = true <;>
      refine ⟨?_, ?_, ?_, ?_⟩ <;>
        simp [odp_schedule_group_destroy, odp_schedule_group_join,
          odp_schedule_group_leave, odp_schedule_group_thrmask, hg]

/-- Concrete group table for witnesses: three well-known slots, one
occupied named slot (index 3, name "a" as a character list, mask 1), one
free named slot. -/
def grp_witness_tbl : List GrpSlot :=
  [grp_free, grp_free, grp_free, ⟨['a'], 1⟩, grp_free]

/-- Witness for C10: id 1 (WORKER) is rejected by all four operations on a
concrete table, id 3 succeeds and id 0 fails per the validity test. -/
theorem group_wellknown_reject_witness :
    ((odp_schedule_group_destroy 1 grp_witness_tbl).1 = -1 ∧
     (odp_schedule_group_join 1 2 grp_witness_tbl).1 = -1 ∧
     (odp_schedule_group_leave 1 2 15 grp_witness_tbl).1 = -1 ∧
     (odp_schedule_group_thrmask 1 grp_witness_tbl).1 = -1) ∧
    ((odp_schedule_group_destroy 3 grp_witness_tbl).1 = 0 ↔
      grp_ok grp_witness_tbl 3 = true) :=
  ⟨(group_wellknown_reject grp_witness_tbl 1 2 15 (Or.inr (Or.inl rfl))).1,
   ((group_wellknown_reject grp_witness_tbl 1 2 15 (Or.inr (Or.inl rfl))).2 3).1⟩

/-! ### C4: join/leave round trip -/

/-- Counterexample for C4 as stated: on a named group whose mask is `{0}`
(bitmask 1), `join(g, {0})` followed by `leave(g, {0})` yields mask `{}`,
not the original `{0}` — `leave` removes bits that were set before the
`join`.  (`sched_mask_all` is taken as bitmask 15, i.e. 4 threads.) -/
theorem join_leave_not_restore :
    (odp_schedule_group_leave 3 1 15
        (odp_schedule_group_join 3 1 grp_witness_tbl).2).2 ≠ grp_witness_tbl := by
  decide

theorem list_set_getD_self (tbl : List GrpSlot) (i : Nat) (v : GrpSlot)
    (hi : i < tbl.length) (hv : tbl.getD i grp_free = v) : tbl.set i v = tbl := by
  induction tbl generalizing i with
  | nil => simp at hi
  | cons hd tl ih =>
    cases i with
    | zero =>
      simp only [List.getD_cons_zero] at hv
      simp [List.set, hv]
    | succ i =>
      simp only [List.getD_cons_succ] at hv
      simp only [List.set]
      rw [ih i (by simpa using hi) hv]

/-- C4 (amended): `join(g, m); leave(g, m)` restores `grp[g].mask`
provided `m` was disjoint from the group's mask before the join, and both
`m` and the group's mask lie within `sched_mask_all` (which always holds
for real thread masks).  Without the disjointness premise the round trip
fails (see the counterexample). -/
theorem join_leave_restores (tbl : List GrpSlot) (group : Int)
    (mask allmask : Nat) (hok : grp_ok tbl group = true)
    (hdisj : (tbl.getD group.toNat grp_free).mask &&& mask = 0)
    (hsub : (tbl.getD group.toNat grp_free).mask &&& allmask =
      (tbl.getD group.toNat grp_free).mask)
    (hmsub : mask &&& allmask = mask) :
    (odp_schedule_group_leave group mask allmask
      (odp_schedule_group_join group mask tbl).2).2 = tbl := by
  have hlen : group.toNat < tbl.length := by
    simp only [grp_ok, Bool.and_eq_true, decide_eq_true_eq] at hok
    omega
  set s := tbl.getD group.toNat grp_free with hs
  have hjoin : (odp_schedule_group_join group mask tbl).2 =
      tbl.set group.toNat ⟨s.name, s.mask ||| mask⟩ := by
    simp only [odp_schedule_group_join, hok, eq_self_iff_true, if_true]
  have hget2 : (tbl.set group.toNat ⟨s.name, s.mask ||| mask⟩).getD
      group.toNat grp_free = ⟨s.name, s.mask ||| mask⟩ := by
    rw [List.getD_eq_getElem _ _ (by simpa using hlen)]
    simp [List.getElem_set_self]
  have hok2 : grp_ok (tbl.set group.toNat ⟨s.name, s.mask ||| mask⟩) group = true := by
    simp only [grp_ok, Bool.and_eq_true, decide_eq_true_eq] at hok ⊢
    rw [hget2]
    simp only [List.length_set]
    exact ⟨⟨hok.1.1, hok.1.2⟩, hok.2⟩
  rw [hjoin]
  simp only [odp_schedule_group_leave, hok2, if_true, hget2]
  rw [List.set_set]
  have hmask : (s.mask ||| mask) &&& (mask ^^^ allmask) = s.mask := by
    apply Nat.eq_of_testBit_eq
    intro i
    have h1 := congrArg (fun x => Nat.testBit x i) hdisj
    have h2 := congrArg (fun x => Nat.testBit x i) hsub
    have h3 := congrArg (fun x => Nat.testBit x i) hmsub
    simp only [Nat.testBit_and, Nat.zero_testBit] at h1 h2 h3
    rw [Nat.testBit_and, Nat.testBit_lor, Nat.testBit_xor]
    cases ha : s.mask.testBit i <;> cases hb : mask.testBit i <;>
      cases hc : allmask.testBit i <;> simp_all
  rw [hmask]
  exact list_set_getD_self tbl group.toNat s hlen rfl

/-- Witness for C4 (amended): a named group with mask `{1}` (bitmask 2),
join then leave of `{0}` (bitmask 1) restores the table. -/
theorem join_leave_restores_witness :
    grp_ok [grp_free, grp_free, grp_free, ⟨['a'], 2⟩] 3 = true ∧
    (odp_schedule_group_leave 3 1 15
      (odp_schedule_group_join 3 1
        [grp_free, grp_free, grp_free, ⟨['a'], 2⟩]).2).2 =
      [grp_free, grp_free, grp_free, ⟨['a'], 2⟩] :=
  ⟨by decide,
   join_leave_restores [grp_free, grp_free, grp_free, ⟨['a'], 2⟩] 3 1 15
     (by decide) (by decide) (by decide) (by decide)⟩

/-! ### C5: lookup after create -/

/-- Counterexample table for C5: five slots, all free. -/
def grp_empty_tbl : List GrpSlot :=
  [grp_free, grp_free, grp_free, grp_free, grp_free]

/-- Counterexample for C5 as stated: create name "a" twice (no destroy in
between).  The second create returns the valid id 4, yet `lookup "a"`
returns 3 — the first matching slot — not the id the second create
returned. -/
theorem lookup_after_duplicate_create :
    (odp_schedule_group_create 32 ['a'] 0
        (odp_schedule_group_create 32 ['a'] 0 grp_empty_tbl).2).1 = some 4 ∧
    odp_schedule_group_lookup ['a']
        (odp_schedule_group_create 32 ['a'] 0
          (odp_schedule_group_create 32 ['a'] 0 grp_empty_tbl).2).2 = some 3 ∧
    some 3 ≠ some 4 := by
  decide

/-- Name stored at slot `j` of the group table. -/
def grp_name_at (tbl : List GrpSlot) (j : Nat) : List Char :=
  (tbl.getD j grp_free).name

/-- A group-administration operation (the four table-mutating calls). -/
inductive GrpOp where
  | mkgrp (name : List Char) (mask : Nat)
  | rmgrp (group : Int)
  | joingrp (group : Int) (mask : Nat)
  | leavegrp (group : Int) (mask : Nat)

/-- Apply one group-administration call to the table (`N` is
`ODP_SCHED_GROUP_NAME_LEN`, `allmask` is `sched_mask_all`). -/
def grp_apply (N allmask : Nat) (tbl : List GrpSlot) : GrpOp → List GrpSlot
  | .mkgrp nm mk => (odp_schedule_group_create N nm mk tbl).2
  | .rmgrp g => (odp_schedule_group_destroy g tbl).2
  | .joingrp g m => (odp_schedule_group_join g m tbl).2
  | .leavegrp g m => (odp_schedule_group_leave g m allmask tbl).2

/-- Apply a sequence of group-administration calls. -/
def grp_apply_list (N allmask : Nat) (tbl : List GrpSlot) : List GrpOp → List GrpSlot
  | [] => tbl
  | op :: rest => grp_apply_list N allmask (grp_apply N allmask tbl op) rest

/-- The slot `g` holds `name` and no other slot does. -/
def GrpUnique (tbl : List GrpSlot) (g : Nat) (name : List Char) : Prop :=
  g < tbl.length ∧ SCHED_GROUP_NAMED ≤ g ∧ grp_name_at tbl g = name ∧
    ∀ j, j < tbl.length → j ≠ g → grp_name_at tbl j ≠ name

/-- A subsequent group operation that keeps "slot `g` uniquely holds
`name`" intact: not `destroy(g)` and not a create whose stored (truncated)
name equals `name`.  Joins and leaves never touch names. -/
def grp_avoids (N : Nat) (name : List Char) (g : Nat) : GrpOp → Prop
  | .mkgrp nm _ => nm.take (N - 1) ≠ name
  | .rmgrp g2 => g2 ≠ (g : Int)
  | .joingrp _ _ => True
  | .leavegrp _ _ => True

theorem grp_name_at_set_eq (tbl : List GrpSlot) (i : Nat) (v : GrpSlot)
    (h : i < tbl.length) : grp_name_at (tbl.set i v) i = v.name := by
  simp [grp_name_at, List.getD_eq_getElem?_getD, List.getElem?_set_self h]

theorem grp_name_at_set_ne (tbl : List GrpSlot) (i j : Nat) (v : GrpSlot)
    (h : j ≠ i) : grp_name_at (tbl.set i v) j = grp_name_at tbl j := by
  simp [grp_name_at, List.getD_eq_getElem?_getD,
    List.getElem?_set_ne (fun he => h he.symm)]

theorem grp_scan_free_spec (tbl : List GrpSlot) :
    ∀ (rem i f : Nat), grp_scan_free tbl rem i = some f →
      i ≤ f ∧ f < i + rem ∧ grp_name_at tbl f = [] := by
  intro rem
  induction rem with
  | zero => intro i f h; simp [grp_scan_free] at h
  | succ rem ih =>
    intro i f h
    simp only [grp_scan_free] at h
    by_cases he : (tbl.getD i grp_free).name = []
    · rw [if_pos he] at h
      cases h
      exact ⟨Nat.le_refl _, by omega, he⟩
    · rw [if_neg he] at h
      obtain ⟨h1, h2, h3⟩ := ih (i + 1) f h
      exact ⟨by omega, by omega, h3⟩

theorem grp_scan_name_finds (tbl : List GrpSlot) (name : List Char) (g : Nat) :
    ∀ (rem i : Nat), i + rem = tbl.length → i ≤ g → g < tbl.length →
      grp_name_at tbl g = name →
      (∀ j, i ≤ j → j < tbl.length → j ≠ g → grp_name_at tbl j ≠ name) →
      grp_scan_name tbl name rem i = some g := by
  intro rem
  induction rem with
  | zero => intro i htot hig hg _ _; omega
  | succ rem ih =>
    intro i htot hig hg hname huniq
    simp only [grp_scan_name]
    by_cases he : (tbl.getD i grp_free).name = name
    · rw [if_pos he]
      by_cases hieq : i = g
      · rw [hieq]
      · exact absurd he (huniq i (Nat.le_refl _) (by omega) hieq)
    · rw [if_neg he]
      have hig2 : i + 1 ≤ g := by
        rcases Nat.lt_or_ge i g with h | h
        · omega
        · have : i = g := by omega
          exact absurd (this ▸ hname) he
      exact ih (i + 1) (by omega) hig2 hg hname
        (fun j hj hjl hjg => huniq j (by omega) hjl hjg)

theorem grp_create_spec (N : Nat) (name : List Char) (mask : Nat)
    (tbl : List GrpSlot) (g : Nat)
    (h : (odp_schedule_group_create N name mask tbl).1 = some g) :
    SCHED_GROUP_NAMED ≤ g ∧ g < tbl.length ∧ grp_name_at tbl g = [] ∧
      (odp_schedule_group_create N name mask tbl).2 =
        tbl.set g ⟨name.take (N - 1), mask⟩ := by
  unfold odp_schedule_group_create at h ⊢
  cases hs : grp_scan_free tbl (tbl.length - SCHED_GROUP_NAMED) SCHED_GROUP_NAMED with
  | none => rw [hs] at h; simp at h
  | some f =>
    rw [hs] at h
    simp only [Option.some_inj] at h
    subst h
    obtain ⟨h1, h2, h3⟩ := grp_scan_free_spec tbl _ _ _ hs
    refine ⟨h1, by omega, h3, by simp [hs]⟩

theorem grp_unique_preserved (N allmask : Nat) (name : List Char) (g : Nat)
    (hname : name ≠ []) (op : GrpOp) (tbl : List GrpSlot)
    (hu : GrpUnique tbl g name) (hav : grp_avoids N name g op) :
    GrpUnique (grp_apply N allmask tbl op) g name := by
  obtain ⟨hg, hg3, hat, huniq⟩ := hu
  cases op with
  | mkgrp nm mk =>
    simp only [grp_apply, grp_avoids] at hav ⊢
    cases hc : (odp_schedule_group_create N nm mk tbl).1 with
    | none =>
      unfold odp_schedule_group_create at hc ⊢
      cases hs : grp_scan_free tbl (tbl.length - SCHED_GROUP_NAMED) SCHED_GROUP_NAMED with
      | none => exact ⟨hg, hg3, hat, huniq⟩
      | some f => rw [hs] at hc; simp at hc
    | some f =>
      obtain ⟨hf3, hfl, hffree, hset⟩ := grp_create_spec N nm mk tbl f hc
      rw [hset]
      have hfg : f ≠ g := fun he => hname (by rw [← hat, ← he, hffree])
      refine ⟨by simpa using hg, hg3, ?_, ?_⟩
      · rw [grp_name_at_set_ne tbl f g _ (fun he => hfg he.symm)]
        exact hat
      · intro j hjl hjg
        by_cases hjf : j = f
        · subst hjf
          rw [grp_name_at_set_eq tbl j _ hfl]
          exact hav
        · rw [grp_name_at_set_ne tbl f j _ hjf]
          exact huniq j (by simpa using hjl) hjg
  | rmgrp g2 =>
    simp only [grp_apply, grp_avoids] at hav ⊢
    unfold odp_schedule_group_destroy
    by_cases hok : grp_ok tbl g2 = true
    · simp only [hok, if_true]
      have hg2 : (SCHED_GROUP_NAMED : Int) ≤ g2 := by
        simp only [grp_ok, Bool.and_eq_true, decide_eq_true_eq] at hok
        exact hok.1.2
      have hg2g : g2.toNat ≠ g := by
        intro he
        apply hav
        omega
      refine ⟨by simpa using hg, hg3, ?_, ?_⟩
      · rw [grp_name_at_set_ne tbl g2.toNat g _ (fun he => hg2g he.symm)]
        exact hat
      · intro j hjl hjg
        by_cases hj2 : j = g2.toNat
        · have hjl2 : g2.toNat < tbl.length := by
            rw [← hj2]; simpa using hjl
          rw [hj2, grp_name_at_set_eq tbl g2.toNat _ hjl2]
          exact fun he => hname he.symm
        · rw [grp_name_at_set_ne tbl g2.toNat j _ hj2]
          exact huniq j (by simpa using hjl) hjg
    · simp only [hok, if_false]
      exact ⟨hg, hg3, hat, huniq⟩
  | joingrp g2 m =>
    simp only [grp_apply] at *
    unfold odp_schedule_group_join
    by_cases hok : grp_ok tbl g2 = true
    · simp only [hok, if_true]
      refine ⟨by simpa using hg, hg3, ?_, ?_⟩
      · by_cases hgg : g = g2.toNat
        · rw [hgg, grp_name_at_set_eq tbl g2.toNat _ (hgg ▸ hg)]
          rw [← hgg]
          exact hat
        · rw [grp_name_at_set_ne tbl g2.toNat g _ hgg]
          exact hat
      · intro j hjl hjg
        by_cases hj2 : j = g2.toNat
        · have hjl2 : g2.toNat < tbl.length := by
            rw [← hj2]; simpa using hjl
          rw [hj2, grp_name_at_set_eq tbl g2.toNat _ hjl2]
          have := huniq j (by simpa using hjl) hjg
          rw [hj2] at this
          simpa [grp_name_at] using this
        · rw [grp_name_at_set_ne tbl g2.toNat j _ hj2]
          exact huniq j (by simpa using hjl) hjg
    · simp only [hok, if_false]
      exact ⟨hg, hg3, hat, huniq⟩
  | leavegrp g2 m =>
    simp only [grp_apply] at *
    unfold odp_schedule_group_leave
    by_cases hok : grp_ok tbl g2 = true
    · simp only [hok, if_true]
      refine ⟨by simpa using hg, hg3, ?_, ?_⟩
      · by_cases hgg : g = g2.toNat
        · rw [hgg, grp_name_at_set_eq tbl g2.toNat _ (hgg ▸ hg)]
          rw [← hgg]
          exact hat
        · rw [grp_name_at_set_ne tbl g2.toNat g _ hgg]
          exact hat
      · intro j hjl hjg
        by_cases hj2 : j = g2.toNat
        · have hjl2 : g2.toNat < tbl.length := by
            rw [← hj2]; simpa using hjl
          rw [hj2, grp_name_at_set_eq tbl g2.toNat _ hjl2]
          have := huniq j (by simpa using hjl) hjg
          rw [hj2] at this
          simpa [grp_name_at] using this
        · rw [grp_name_at_set_ne tbl g2.toNat j _ hj2]
          exact huniq j (by simpa using hjl) hjg
    · simp only [hok, if_false]
      exact ⟨hg, hg3, hat, huniq⟩

theorem grp_unique_lookup (tbl : List GrpSlot) (g : Nat) (name : List Char)
    (hu : GrpUnique tbl g name) :
    odp_schedule_group_lookup name tbl = some g := by
  obtain ⟨hg, hg3, hat, huniq⟩ := hu
  unfold odp_schedule_group_lookup
  exact grp_scan_name_finds tbl name g _ SCHED_GROUP_NAMED (by omega) hg3 hg hat
    (fun j _ hjl hjg => huniq j hjl hjg)

theorem grp_unique_apply_list (N allmask : Nat) (name : List Char) (g : Nat)
    (hname : name ≠ []) :
    ∀ (ops : List GrpOp) (tbl : List GrpSlot), GrpUnique tbl g name →
      (∀ op ∈ ops, grp_avoids N name g op) →
      GrpUnique (grp_apply_list N allmask tbl ops) g name := by
  intro ops
  induction ops with
  | nil => intro tbl hu _; exact hu
  | cons op rest ih =>
    intro tbl hu hav
    exact ih _ (grp_unique_preserved N allmask name g hname op tbl hu
        (hav op (List.mem_cons_self op rest)))
      (fun o ho => hav o (List.mem_cons_of_mem op ho))

/-- C5 (amended): after `group_create(name, mask)` returns a valid id `g`
— where `name` is non-empty, short enough not to be truncated
(`|name| ≤ N - 1`), and not already stored in any slot — `group_lookup(name)`
returns `g` across any subsequent sequence of group operations that
contains no `group_destroy(g)` and no create storing the same name.  (As
stated the claim fails: a second create of the same name yields a valid
new id while lookup keeps returning the first slot; see the
counterexample.) -/
theorem group_lookup_stable (N allmask : Nat) (tbl : List GrpSlot)
    (name : List Char) (mask : Nat) (ops : List GrpOp) (g : Nat)
    (hname : name ≠ []) (hlen : name.length ≤ N - 1)
    (hnodup : ∀ j, j < tbl.length → grp_name_at tbl j ≠ name)
    (hcreate : (odp_schedule_group_create N name mask tbl).1 = some g)
    (hops : ∀ op ∈ ops, grp_avoids N name g op) :
    odp_schedule_group_lookup name
      (grp_apply_list N allmask (odp_schedule_group_create N name mask tbl).2 ops) =
      some g := by
  obtain ⟨hg3, hgl, hgfree, hset⟩ := grp_create_spec N name mask tbl g hcreate
  have htake : name.take (N - 1) = name := List.take_of_length_le hlen
  have hu : GrpUnique ((odp_schedule_group_create N name mask tbl).2) g name := by
    rw [hset]
    refine ⟨by simpa using hgl, hg3, ?_, ?_⟩
    · rw [grp_name_at_set_eq tbl g _ hgl, htake]
    · intro j hjl hjg
      rw [grp_name_at_set_ne tbl g j _ hjg]
      exact hnodup j (by simpa using hjl)
  exact grp_unique_lookup _ g name
    (grp_unique_apply_list N allmask name g hname ops _ hu hops)

/-- Witness for C5 (amended): create "a" in the empty table (id 3), then
join group 3 and create a group "b"; lookup "a" still returns 3. -/
theorem group_lookup_stable_witness :
    (odp_schedule_group_create 32 ['a'] 0 grp_empty_tbl).1 = some 3 ∧
    odp_schedule_group_lookup ['a']
      (grp_apply_list 32 15 (odp_schedule_group_create 32 ['a'] 0 grp_empty_tbl).2
        [GrpOp.joingrp 3 2, GrpOp.mkgrp ['b'] 1]) = some 3 :=
  ⟨by decide,
   group_lookup_stable 32 15 grp_empty_tbl ['a'] 0
     [GrpOp.joingrp 3 2, GrpOp.mkgrp ['b'] 1] 3
     (by decide) (by decide) (by decide) (by decide)
     (by intro op hop
         simp only [List.mem_cons, List.not_mem_nil, or_false] at hop
         rcases hop with h | h
         · subst h; trivial
         · subst h
           simp only [grp_avoids]
           decide)⟩

/-! ## Waiting wrapper (`schedule_loop`)

`schedule_loop` repeats `schedule()`; the callee's successive return
values are modelled as the external sequence `att` (attempt `k` returns
`att k`) and the cycle counter as the external sequence `cyc` (the `c`-th
call of `odp_time_cycles()` returns `cyc c`).  In the always-empty runs
proved about here attempt `k` coincides with cycle read `k`.  The loop
may not terminate (`ODP_SCHED_WAIT`), so it is fuel-indexed: `none` means
still looping after `fuel` iterations.  The result carries the number of
`schedule()` attempts made. -/

/-- Modelled from the spec: the two `wait` sentinels (from the ODP headers,
not in this source tree): `ODP_SCHED_WAIT` spins forever, `ODP_SCHED_NO_WAIT`
returns after one attempt; every other value is a cycle count. -/
def ODP_SCHED_WAIT : Nat := 2 ^ 64 - 1

/-- Modelled from the spec: see `ODP_SCHED_WAIT`. -/
def ODP_SCHED_NO_WAIT : Nat := 0

/-- Modelled from the spec: `odp_time_diff_cycles(start, cycle)` of the
monotonic cycle counter is the elapsed count `cycle - start`. -/
def time_diff_cycles (start cycle : Nat) : Nat := cycle - start

/-- The body of `schedule_loop`: `k` counts `schedule()` attempts, `c`
counts cycle-counter reads, `start` is `start_cycle` (0 = not yet taken). -/
def schedule_loop_aux (att cyc : Nat → Nat) (wait : Nat) :
    Nat → Nat → Nat → Nat → Option (Nat × Nat)
  | 0, _, _, _ => none
  | fuel + 1, k, c, start =>
    let ret := att k
    if ret ≠ 0 then some (ret, k + 1)
    else if wait = ODP_SCHED_WAIT then schedule_loop_aux att cyc wait fuel (k + 1) c start
    else if wait = ODP_SCHED_NO_WAIT then some (0, k + 1)
    else if start = 0 then schedule_loop_aux att cyc wait fuel (k + 1) (c + 1) (cyc c)
    else
      let cycle := cyc c
      if wait < time_diff_cycles start cycle then some (0, k + 1)
      else schedule_loop_aux att cyc wait fuel (k + 1) (c + 1) start

/-- `schedule_loop(out_queue, wait, out_ev, max_num, max_deq)`, abstracted
over the callee's results: run the loop from the initial state
(`start_cycle = 0`). -/
def schedule_loop (att cyc : Nat → Nat) (wait fuel : Nat) : Option (Nat × Nat) :=
  schedule_loop_aux att cyc wait fuel 0 0 0

theorem schedule_loop_aux_succ (att cyc : Nat → Nat) (wait fuel k c start : Nat) :
    schedule_loop_aux att cyc wait (fuel + 1) k c start =
      (if att k ≠ 0 then some (att k, k + 1)
       else if wait = ODP_SCHED_WAIT then schedule_loop_aux att cyc wait fuel (k + 1) c start
       else if wait = ODP_SCHED_NO_WAIT then some (0, k + 1)
       else if start = 0 then schedule_loop_aux att cyc wait fuel (k + 1) (c + 1) (cyc c)
       else if wait < time_diff_cycles start (cyc c) then some (0, k + 1)
       else schedule_loop_aux att cyc wait fuel (k + 1) (c + 1) start) := rfl

theorem schedule_loop_aux_timeout (att cyc : Nat → Nat) (wait start : Nat)
    (hW : wait ≠ ODP_SCHED_WAIT) (hNW : wait ≠ ODP_SCHED_NO_WAIT)
    (hstart : start ≠ 0) (hatt : ∀ j, att j = 0) :
    ∀ fuel c k, wait < time_diff_cycles start (cyc (c + fuel)) →
      ∃ t, t ≤ fuel ∧
        schedule_loop_aux att cyc wait (fuel + 1) k c start = some (0, k + 1 + t) ∧
        wait < time_diff_cycles start (cyc (c + t)) := by
  intro fuel
  induction fuel with
  | zero =>
    intro c k hx
    refine ⟨0, Nat.le_refl _, ?_, by simpa using hx⟩
    rw [schedule_loop_aux_succ,
      if_neg (by simp [hatt k]), if_neg hW, if_neg hNW, if_neg hstart,
      if_pos (by simpa using hx)]
  | succ fuel ih =>
    intro c k hx
    by_cases hnow : wait < time_diff_cycles start (cyc c)
    · refine ⟨0, by omega, ?_, by simpa using hnow⟩
      rw [schedule_loop_aux_succ,
        if_neg (by simp [hatt k]), if_neg hW, if_neg hNW, if_neg hstart,
        if_pos hnow]
    · obtain ⟨t, ht, heq, hxt⟩ := ih (c + 1) (k + 1)
        (by rw [show c + 1 + fuel = c + (fuel + 1) by omega]; exact hx)
      have harith : k + 1 + 1 + t = k + 1 + (t + 1) := by omega
      refine ⟨t + 1, by omega, ?_, ?_⟩
      · rw [schedule_loop_aux_succ,
          if_neg (by simp [hatt k]), if_neg hW, if_neg hNW, if_neg hstart,
          if_neg hnow, ← harith, heq]
      · rw [show c + (t + 1) = c + 1 + t by omega]
        exact hxt

/-- C9: the waiting wrapper `schedule_loop` (a) returns after exactly one
`schedule` attempt when `wait = ODP_SCHED_NO_WAIT`; (b) returns a positive
first-attempt result immediately for every `wait` mode; (c) for
`wait = ODP_SCHED_WAIT` the first positive result is returned as soon as it
occurs; and (d) for any other `wait` value, when every attempt is empty,
it snapshots the cycle counter on the first empty attempt and returns 0 at
the first later attempt whose elapsed cycles exceed `wait` (at most `k + 1`
attempts when `wait < cyc k - cyc 0`). -/
theorem schedule_loop_spec (att cyc : Nat → Nat) :
    (∀ fuel, 1 ≤ fuel → schedule_loop att cyc ODP_SCHED_NO_WAIT fuel = some (att 0, 1)) ∧
    (∀ wait fuel, att 0 ≠ 0 → 1 ≤ fuel →
      schedule_loop att cyc wait fuel = some (att 0, 1)) ∧
    (∀ k fuel, (∀ j, j < k → att j = 0) → att k ≠ 0 → k < fuel →
      schedule_loop att cyc ODP_SCHED_WAIT fuel = some (att k, k + 1)) ∧
    (∀ wait k, wait ≠ ODP_SCHED_WAIT → wait ≠ ODP_SCHED_NO_WAIT →
      (∀ j, att j = 0) → cyc 0 ≠ 0 → 1 ≤ k →
      wait < time_diff_cycles (cyc 0) (cyc k) →
      ∃ m, 2 ≤ m ∧ m ≤ k + 1 ∧
        schedule_loop att cyc wait (k + 1) = some (0, m) ∧
        wait < time_diff_cycles (cyc 0) (cyc (m - 1))) := by
  have hWNW : ODP_SCHED_NO_WAIT ≠ ODP_SCHED_WAIT := by
    simp [ODP_SCHED_WAIT, ODP_SCHED_NO_WAIT]
  refine ⟨?_, ?_, ?_, ?_⟩
  · intro fuel hf
    obtain ⟨fuel2, rfl⟩ : ∃ f2, fuel = f2 + 1 := ⟨fuel - 1, by omega⟩
    rw [schedule_loop, schedule_loop_aux_succ]
    by_cases h0 : att 0 ≠ 0
    · rw [if_pos h0]
    · rw [if_neg h0, if_neg hWNW, if_pos rfl]
      simp only [ne_eq, not_not] at h0
      rw [h0]
  · intro wait fuel h0 hf
    obtain ⟨fuel2, rfl⟩ : ∃ f2, fuel = f2 + 1 := ⟨fuel - 1, by omega⟩
    rw [schedule_loop, schedule_loop_aux_succ, if_pos h0]
  · intro k
    have main : ∀ (k2 c k0 : Nat) (fuel : Nat), (∀ j, j < k2 → att (k0 + j) = 0) →
        att (k0 + k2) ≠ 0 → k2 < fuel →
        schedule_loop_aux att cyc ODP_SCHED_WAIT fuel k0 c 0 =
          some (att (k0 + k2), k0 + k2 + 1) := by
      intro k2
      induction k2 with
      | zero =>
        intro c k0 fuel _ hk hf
        obtain ⟨fuel2, rfl⟩ : ∃ f2, fuel = f2 + 1 := ⟨fuel - 1, by omega⟩
        rw [schedule_loop_aux_succ, if_pos (by simpa using hk)]
        simp
      | succ k2 ih =>
        intro c k0 fuel hprev hk hf
        obtain ⟨fuel2, rfl⟩ : ∃ f2, fuel = f2 + 1 := ⟨fuel - 1, by omega⟩
        rw [schedule_loop_aux_succ,
          if_neg (by simpa using hprev 0 (by omega)), if_pos rfl]
        have heq := ih c (k0 + 1) fuel2
          (fun j hj => by
            rw [show k0 + 1 + j = k0 + (j + 1) by omega]
            exact hprev (j + 1) (by omega))
          (by rw [show k0 + 1 + k2 = k0 + (k2 + 1) by omega]; exact hk) (by omega)
        rw [show k0 + 1 + k2 = k0 + (k2 + 1) by omega] at heq
        rw [heq]
    intro fuel hprev hk hf
    have := main k 0 0 fuel (fun j hj => by simpa using hprev j hj) (by simpa using hk) hf
    simpa using this
  · intro wait k hW hNW hatt hc0 hk hx
    obtain ⟨k2, rfl⟩ : ∃ k2, k = k2 + 1 := ⟨k - 1, by omega⟩
    have h1 : schedule_loop att cyc wait (k2 + 1 + 1) =
        schedule_loop_aux att cyc wait (k2 + 1) 1 1 (cyc 0) := by
      rw [schedule_loop, schedule_loop_aux_succ,
        if_neg (by simp [hatt 0]), if_neg hW, if_neg hNW, if_pos rfl]
    obtain ⟨t, ht, heq, hxt⟩ := schedule_loop_aux_timeout att cyc wait (cyc 0)
      hW hNW hc0 hatt k2 1 1 (by rw [show 1 + k2 = k2 + 1 by omega]; exact hx)
    refine ⟨2 + t, by omega, by omega, ?_, ?_⟩
    · rw [h1, heq]
    · rw [show 2 + t - 1 = 1 + t by omega]
      exact hxt

theorem schedule_loop_spec_witness :
    ∃ m, 2 ≤ m ∧ m ≤ 3 ∧
      schedule_loop (fun _ => 0) (fun c => c + 1) 1 3 = some (0, m) ∧
      1 < time_diff_cycles ((fun c : Nat => c + 1) 0) ((fun c : Nat => c + 1) (m - 1)) :=
  (schedule_loop_spec (fun _ => 0) (fun c => c + 1)).2.2.2 1 2
    (by decide) (by decide) (fun _ => rfl) (by decide) (by decide) (by decide)

/-! ## Dispatcher (`schedule`) and context release

Global shared state (`sched_t` plus the substrate it reaches through):
priority masks/counts, lane queues of command tokens, source-queue
entries, and group thread masks.  Thread-local state mirrors
`sched_local_t`.  Events and buffer headers become `Buf`; the two command
kinds become `Cmd`.  `pktin_poll` and `release_order` are external
(`odp_packet_io` / `odp_queue`, not in this source tree): the former is an
oracle `poll_res : Nat → Bool` (true = retire), the latter contributes
only its return code `rel_rc` (and its effects on the external reorder
state, which the scheduler does not read).  The fields
`sched_local.pri_queue`/`cmd_ev` are only ever read together under
`pri_queue != ODP_QUEUE_INVALID`, so they are merged into one optional
`atomic_hold` (lane coordinates plus the held token).  Each
`queue_deq_multi` request is recorded in `deq_log` (queue id, requested
count). -/

/-- Synchronization class of a source queue. -/
inductive SyncClass where
  | parallel
  | atomic
  | ordered
deriving DecidableEq

/-- A buffer header: the event handle it converts to, and the ordered-flow
metadata (`order`, `sync[]`). -/
structure Buf where
  ev : Nat
  order : Nat
  sync : List Nat
deriving DecidableEq

/-- A command token (`sched_cmd_t` inside a pool buffer): DEQUEUE carries
the queue entry, POLL_PKTIN carries the pktio handle and priority. -/
inductive Cmd where
  | deq (qid : Nat)
  | pollPktin (pktio : Nat) (prio : Nat)
deriving DecidableEq

/-- A source-queue entry as the scheduler sees it: scheduling parameters
(`param.sched.group`, sync class, `lock_count`), whether the queue was
concurrently destroyed (`queue_deq_multi` returns negative), and its
current content. -/
structure QueueInfo where
  group : Int
  sync : SyncClass
  lock_count : Nat
  destroyed : Bool
  content : List Buf
deriving DecidableEq

/-- Global scheduler state plus the substrate objects it manipulates. -/
structure Glob where
  pri_mask : Nat → Nat
  pri_count : Nat → Nat → Nat
  lanes : Nat → Nat → List Cmd
  queues : Nat → QueueInfo
  grp : Int → Nat
  deq_log : List (Nat × Nat)

/-- Thread-local scheduler state (`sched_local_t`). -/
structure Local where
  atomic_hold : Option (Nat × Nat × Cmd)
  buf_hdr : List Buf
  qe : Nat
  origin_qe : Option Nat
  order : Nat
  sync : Nat → Nat
  enq_called : Bool
  num : Nat
  index : Nat
  pause : Bool
  ignore_ordered_context : Bool

/-- Arguments of one `schedule()` invocation: the `pktin_poll` oracle,
the calling thread id, whether `out_queue` is non-null, `max_num` and
`max_deq`. -/
structure SchedArg where
  poll_res : Nat → Bool
  thr : Nat
  want_src : Bool
  max_num : Nat
  max_deq : Nat

/-- Result of one `schedule()` invocation: the return value, the value
written through `out_queue` (none when the pointer is null or untouched),
and the events written to `out_ev[]`. -/
structure SchedRes where
  ret : Nat
  src : Option Nat
  events : List Nat
deriving DecidableEq

/-- Replace the content of lane `(i, id)`. -/
def set_lane (g : Glob) (i id : Nat) (l : List Cmd) : Glob :=
  { g with lanes := fun p j => if p = i ∧ j = id then l else g.lanes p j }

/-- `odp_queue_enq(pri_q, ev)` on lane `(i, id)`: append the token. -/
def enq_lane (g : Glob) (i id : Nat) (c : Cmd) : Glob :=
  { g with lanes := fun p j => if p = i ∧ j = id then g.lanes p j ++ [c] else g.lanes p j }

/-- Replace the content of source queue `qid`. -/
def set_content (g : Glob) (qid : Nat) (c : List Buf) : Glob :=
  { g with queues := fun x => if x = qid then
      { g.queues x with content := c } else g.queues x }

/-- `pri_clr` acting on the global state (as called from the POLL_PKTIN
retire path): decrement the `uint32_t` count, clear the `uint8_t` mask bit
when it reaches zero. -/
def pri_clr_g (g : Glob) (id prio : Nat) : Glob :=
  let c := (g.pri_count prio id + (2 ^ 32 - 1)) % 2 ^ 32
  { g with
    pri_count := fun p i => if p = prio ∧ i = id then c else g.pri_count p i,
    pri_mask := fun p =>
      if p = prio ∧ c = 0 then g.pri_mask p &&& ((2 ^ 8 - 1) ^^^ (1 <<< id))
      else g.pri_mask p }

/-- `copy_events(out_ev, max)`: move up to `max` of the locally cached
events (`buf_hdr[index..]`) out, advancing `index` and consuming `num`;
returns the copied events (the C function returns their count `i`). -/
def copy_events : Local → Nat → List Nat × Local
  | l, 0 => ([], l)
  | l, m + 1 =>
    if l.num = 0 then ([], l)
    else
      let hd := (l.buf_hdr.getD l.index ⟨0, 0, []⟩).ev
      let r := copy_events { l with index := l.index + 1, num := l.num - 1 } m
      (hd :: r.1, r.2)

/-- `odp_schedule_release_atomic()`: when an atomic context is held and no
cached events remain, re-enqueue the held command token onto its lane and
clear the context. -/
def odp_schedule_release_atomic (g : Glob) (l : Local) : Glob × Local :=
  match l.atomic_hold with
  | some (p, id, ev) =>
    if l.num = 0 then (enq_lane g p id ev, { l with atomic_hold := none })
    else (g, l)
  | none => (g, l)

/-- `odp_schedule_release_ordered()`: when an ordered context is held,
call `release_order` (external; `rel_rc` is its return code) and clear the
ordered-origin pointer only on success (`rc == 0`). -/
def odp_schedule_release_ordered (rel_rc : Int) (l : Local) : Local :=
  match l.origin_qe with
  | some _ => if rel_rc = 0 then { l with origin_qe := none } else l
  | none => l

/-- `odp_schedule_release_context()`: when an ordered context is held,
call `release_order` (external; its return code `rel_rc` is discarded) and
clear the ordered-origin pointer unconditionally; otherwise release any
atomic context. -/
def odp_schedule_release_context (_rel_rc : Int) (g : Glob) (l : Local) : Glob × Local :=
  match l.origin_qe with
  | some _ => (g, { l with origin_qe := none })
  | none => odp_schedule_release_atomic g l

/-- The body of the inner lane loop of `schedule()` for one priority `i`:
`j` counts the remaining iterations (from `QUEUES_PER_PRIO` down), `id` is
the current lane index (re-zeroed at the loop head when it reaches
`QUEUES_PER_PRIO`, starting from `thr & (QUEUES_PER_PRIO - 1)`).  Returns
`none` when the lane walk falls through to the next priority. -/
def walk_lanes (a : SchedArg) (i : Nat) :
    Nat → Nat → Glob → Local → Option SchedRes × Glob × Local
  | 0, _, g, l => (none, g, l)
  | j + 1, id0, g, l =>
    let id := if id0 ≥ 4 then 0 else id0
    if g.pri_mask i &&& (1 <<< id) = 0 then walk_lanes a i j (id + 1) g l
    else
      match g.lanes i id with
      | [] => walk_lanes a i j (id + 1) g l
      | ev :: rest =>
        let g1 := set_lane g i id rest
        match ev with
        | .pollPktin pktio prio =>
          if a.poll_res pktio then
            walk_lanes a i j (id + 1) (pri_clr_g g1 (pktio &&& 3) prio) l
          else
            walk_lanes a i j (id + 1) (enq_lane g1 i id ev) l
        | .deq qid =>
          let q := g1.queues qid
          if q.group > 0 ∧ (g1.grp q.group).testBit a.thr = false then
            walk_lanes a i j (id + 1) (enq_lane g1 i id ev) l
          else
            let md := if q.sync = SyncClass.ordered then 1 else a.max_deq
            let g2 := { g1 with deq_log := g1.deq_log ++ [(qid, md)] }
            if q.destroyed then walk_lanes a i j (id + 1) g2 l
            else
              let num := min md q.content.length
              if num = 0 then walk_lanes a i j (id + 1) g2 l
              else
                let drained := q.content.take num
                let g3 := set_content g2 qid (q.content.drop num)
                let l1 := { l with num := num, index := 0, qe := qid, buf_hdr := drained }
                let r := copy_events l1 a.max_num
                let res : SchedRes :=
                  ⟨r.1.length, if a.want_src then some qid else none, r.1⟩
                if q.sync = SyncClass.ordered then
                  let hd := drained.getD 0 ⟨0, 0, []⟩
                  (some res, enq_lane g3 i id ev,
                    { r.2 with
                      origin_qe := some qid
                      order := hd.order
                      sync := (fun k => if k < q.lock_count then hd.sync.getD k 0
                        else r.2.sync k)
                      enq_called := false })
                else if q.sync = SyncClass.atomic then
                  (some res, g3, { r.2 with atomic_hold := some (i, id, ev) })
                else
                  (some res, enq_lane g3 i id ev, r.2)

/-- The outer priority loop of `schedule()`: `rem` priorities remain,
starting at priority `i`; a priority whose mask is zero is skipped. -/
def walk_prios (a : SchedArg) :
    Nat → Nat → Glob → Local → SchedRes × Glob × Local
  | 0, _, g, l => (⟨0, none, []⟩, g, l)
  | rem + 1, i, g, l =>
    if g.pri_mask i = 0 then walk_prios a rem (i + 1) g l
    else
      match walk_lanes a i 4 (a.thr &&& 3) g l with
      | (some r, g1, l1) => (r, g1, l1)
      | (none, g1, l1) => walk_prios a rem (i + 1) g1 l1

/-- `schedule(out_queue, out_ev, max_num, max_deq)`: serve locally cached
events first; otherwise release any held context, honour `pause`, and walk
the priorities and lanes (`nprio` is `ODP_CONFIG_SCHED_PRIOS`). -/
def schedule (a : SchedArg) (rel_rc : Int) (nprio : Nat) (g : Glob) (l : Local) :
    SchedRes × Glob × Local :=
  if l.num ≠ 0 then
    let r := copy_events l a.max_num
    (⟨r.1.length, if a.want_src then some l.qe else none, r.1⟩, g, r.2)
  else
    let gl := odp_schedule_release_context rel_rc g l
    if gl.2.pause then (⟨0, none, []⟩, gl.1, gl.2)
    else walk_prios a nprio 0 gl.1 gl.2

@[simp] theorem set_lane_queues (g : Glob) (i id : Nat) (L : List Cmd) :
    (set_lane g i id L).queues = g.queues := rfl

@[simp] theorem set_lane_grp (g : Glob) (i id : Nat) (L : List Cmd) :
    (set_lane g i id L).grp = g.grp := rfl

@[simp] theorem set_lane_log (g : Glob) (i id : Nat) (L : List Cmd) :
    (set_lane g i id L).deq_log = g.deq_log := rfl

@[simp] theorem enq_lane_queues (g : Glob) (i id : Nat) (c : Cmd) :
    (enq_lane g i id c).queues = g.queues := rfl

@[simp] theorem enq_lane_grp (g : Glob) (i id : Nat) (c : Cmd) :
    (enq_lane g i id c).grp = g.grp := rfl

@[simp] theorem enq_lane_log (g : Glob) (i id : Nat) (c : Cmd) :
    (enq_lane g i id c).deq_log = g.deq_log := rfl

@[simp] theorem pri_clr_g_queues (g : Glob) (id prio : Nat) :
    (pri_clr_g g id prio).queues = g.queues := rfl

@[simp] theorem pri_clr_g_grp (g : Glob) (id prio : Nat) :
    (pri_clr_g g id prio).grp = g.grp := rfl

@[simp] theorem pri_clr_g_lanes (g : Glob) (id prio : Nat) :
    (pri_clr_g g id prio).lanes = g.lanes := rfl

@[simp] theorem pri_clr_g_log (g : Glob) (id prio : Nat) :
    (pri_clr_g g id prio).deq_log = g.deq_log := rfl

@[simp] theorem set_content_lanes (g : Glob) (qid : Nat) (c : List Buf) :
    (set_content g qid c).lanes = g.lanes := rfl

@[simp] theorem set_content_grp (g : Glob) (qid : Nat) (c : List Buf) :
    (set_content g qid c).grp = g.grp := rfl

@[simp] theorem set_content_log (g : Glob) (qid : Nat) (c : List Buf) :
    (set_content g qid c).deq_log = g.deq_log := rfl

@[simp] theorem set_content_sync (g : Glob) (qid : Nat) (c : List Buf) (x : Nat) :
    ((set_content g qid c).queues x).sync = (g.queues x).sync := by
  unfold set_content
  by_cases h : x = qid <;> simp [h]

@[simp] theorem set_content_group (g : Glob) (qid : Nat) (c : List Buf) (x : Nat) :
    ((set_content g qid c).queues x).group = (g.queues x).group := by
  unfold set_content
  by_cases h : x = qid <;> simp [h]

theorem set_content_content_ne (g : Glob) (qid : Nat) (c : List Buf) (x : Nat)
    (h : x ≠ qid) :
    ((set_content g qid c).queues x).content = (g.queues x).content := by
  unfold set_content
  simp [h]

/-! ### C2: release_context vs release_ordered -/

/-- Concrete global state for the C2 counterexample (empty fabric). -/
def c2_glob : Glob :=
  ⟨fun _ => 0, fun _ _ => 0, fun _ _ => [], fun _ => ⟨0, .parallel, 0, false, []⟩,
   fun _ => 0, []⟩

/-- Concrete thread-local state holding an ordered context on queue 5. -/
def c2_local : Local :=
  ⟨none, [], 0, some 5, 0, fun _ => 0, false, 0, 0, false, false⟩

/-- Counterexample for C2 as stated: with an ordered context held and
`release_order` failing (`rc = 1 ≠ 0`), `odp_schedule_release_context`
still clears the ordered-origin pointer (the C code discards the return
code), while `odp_schedule_release_ordered` — the function the claim says
it behaves as — leaves the context intact. -/
theorem release_context_clears_on_failure :
    c2_local.origin_qe = some 5 ∧
    (odp_schedule_release_context 1 c2_glob c2_local).2.origin_qe = none ∧
    (odp_schedule_release_ordered 1 c2_local).origin_qe = some 5 :=
  ⟨rfl, rfl, rfl⟩

/-- C2 (amended): when an ordered context is held,
`odp_schedule_release_context` calls `release_order` and clears the
ordered-origin pointer unconditionally — for every return code, including
failures — whereas `odp_schedule_release_ordered` clears it only when
`release_order` succeeds (returns 0) and leaves it intact on failure. -/
theorem release_context_unconditional_clear (g : Glob) (l : Local) (rc : Int)
    (h : l.origin_qe.isSome = true) :
    (odp_schedule_release_context rc g l).2.origin_qe = none ∧
    (odp_schedule_release_ordered rc l).origin_qe =
      (if rc = 0 then none else l.origin_qe) := by
  cases hq : l.origin_qe with
  | none => rw [hq] at h; simp at h
  | some q =>
    constructor
    · simp [odp_schedule_release_context, hq]
    · by_cases hrc : rc = 0 <;> simp [odp_schedule_release_ordered, hq, hrc]

/-- Witness for C2 (amended): the concrete held ordered context with a
failing return code. -/
theorem release_context_unconditional_clear_witness :
    c2_local.origin_qe.isSome = true ∧
    ((odp_schedule_release_context 1 c2_glob c2_local).2.origin_qe = none ∧
     (odp_schedule_release_ordered 1 c2_local).origin_qe =
       (if (1 : Int) = 0 then none else c2_local.origin_qe)) :=
  ⟨rfl, release_context_unconditional_clear c2_glob c2_local 1 rfl⟩

/-! ### C8: the cached-events fast path -/

theorem copy_events_spec (m : Nat) : ∀ l : Local,
    (copy_events l m).1.length = min l.num m ∧
    (copy_events l m).2.num = l.num - min l.num m ∧
    (copy_events l m).2.index = l.index + min l.num m ∧
    (copy_events l m).2.atomic_hold = l.atomic_hold ∧
    (copy_events l m).2.origin_qe = l.origin_qe ∧
    (copy_events l m).2.order = l.order ∧
    (copy_events l m).2.sync = l.sync ∧
    (copy_events l m).2.enq_called = l.enq_called ∧
    (copy_events l m).2.qe = l.qe ∧
    (copy_events l m).2.buf_hdr = l.buf_hdr ∧
    (copy_events l m).2.pause = l.pause := by
  induction m with
  | zero =>
    intro l
    simp [copy_events]
  | succ m ih =>
    intro l
    by_cases h : l.num = 0
    · simp [copy_events, h]
    · obtain ⟨h1, h2, h3, h4, h5, h6, h7, h8, h9, h10, h11⟩ :=
        ih { l with index := l.index + 1, num := l.num - 1 }
      dsimp only at h1 h2 h3 h4 h5 h6 h7 h8 h9 h10 h11
      simp only [copy_events, if_neg h]
      refine ⟨?_, ?_, ?_, h4, h5, h6, h7, h8, h9, h10, h11⟩
      · simp only [List.length_cons, h1]
        omega
      · rw [h2]; omega
      · rw [h3]; omega

theorem copy_events_events (m : Nat) : ∀ l : Local,
    l.index + l.num ≤ l.buf_hdr.length →
    (copy_events l m).1 =
      ((l.buf_hdr.drop l.index).take (min l.num m)).map Buf.ev := by
  induction m with
  | zero => intro l _; simp [copy_events]
  | succ m ih =>
    intro l hwf
    by_cases h : l.num = 0
    · simp [copy_events, h]
    · have hidx : l.index < l.buf_hdr.length := by omega
      have hrec := ih { l with index := l.index + 1, num := l.num - 1 } (by simp; omega)
      simp only [copy_events, if_neg h, hrec]
      rw [List.drop_eq_getElem_cons hidx]
      rw [show min l.num (m + 1) = min (l.num - 1) m + 1 by omega]
      simp only [List.take_succ_cons, List.map_cons, List.cons.injEq]
      refine ⟨?_, ?_⟩
      · rw [List.getD_eq_getElem _ _ hidx]
      · trivial

/-- C8: with locally cached events (`local_num > 0`), `schedule` copies
exactly `min(local_num, max_num)` cached events to `out_events` (the
cached slice itself, under the cache well-formedness bound), decreases
`local_num` and advances `local_index` by that count, writes the cached
source queue through `out_src` when the pointer is non-null, returns that
count, and leaves the global state and the atomic/ordered context state
untouched. -/
theorem schedule_cached_path (a : SchedArg) (rc : Int) (nprio : Nat)
    (g : Glob) (l : Local) (hnum : 0 < l.num) :
    (schedule a rc nprio g l).1.ret = min l.num a.max_num ∧
    (schedule a rc nprio g l).1.events.length = min l.num a.max_num ∧
    (schedule a rc nprio g l).1.src = (if a.want_src then some l.qe else none) ∧
    (schedule a rc nprio g l).2.1 = g ∧
    (schedule a rc nprio g l).2.2.num = l.num - min l.num a.max_num ∧
    (schedule a rc nprio g l).2.2.index = l.index + min l.num a.max_num ∧
    (schedule a rc nprio g l).2.2.atomic_hold = l.atomic_hold ∧
    (schedule a rc nprio g l).2.2.origin_qe = l.origin_qe ∧
    (schedule a rc nprio g l).2.2.order = l.order ∧
    (schedule a rc nprio g l).2.2.sync = l.sync ∧
    (schedule a rc nprio g l).2.2.enq_called = l.enq_called ∧
    (l.index + l.num ≤ l.buf_hdr.length →
      (schedule a rc nprio g l).1.events =
        ((l.buf_hdr.drop l.index).take (min l.num a.max_num)).map Buf.ev) := by
  obtain ⟨h1, h2, h3, h4, h5, h6, h7, h8, _, _, _⟩ := copy_events_spec a.max_num l
  have hne : l.num ≠ 0 := by omega
  simp only [schedule, if_pos hne, ne_eq]
  exact ⟨h1, h1, trivial, trivial, h2, h3, h4, h5, h6, h7, h8,
    fun hwf => copy_events_events a.max_num l hwf⟩

/-- Concrete thread-local state with two cached events for the C8 witness. -/
def c8_local : Local :=
  ⟨none, [⟨41, 0, []⟩, ⟨42, 0, []⟩], 9, none, 0, fun _ => 0, false, 2, 0, false, false⟩

/-- Witness for C8: two cached events, `max_num = 1`: one event (41) is
returned, one stays cached, the source is queue 9. -/
theorem schedule_cached_path_witness :
    0 < c8_local.num ∧
    ((schedule ⟨fun _ => false, 0, true, 1, 4⟩ 0 1 c2_glob c8_local).1.ret =
        min c8_local.num 1 ∧
      (schedule ⟨fun _ => false, 0, true, 1, 4⟩ 0 1 c2_glob c8_local).1.src =
        (if true then some c8_local.qe else none) ∧
      (schedule ⟨fun _ => false, 0, true, 1, 4⟩ 0 1 c2_glob c8_local).2.2.num =
        c8_local.num - min c8_local.num 1) :=
  ⟨by decide,
   (schedule_cached_path ⟨fun _ => false, 0, true, 1, 4⟩ 0 1 c2_glob c8_local
       (by decide)).1,
   (schedule_cached_path ⟨fun _ => false, 0, true, 1, 4⟩ 0 1 c2_glob c8_local
       (by decide)).2.2.1,
   (schedule_cached_path ⟨fun _ => false, 0, true, 1, 4⟩ 0 1 c2_glob c8_local
       (by decide)).2.2.2.2.1⟩

/-! ### C7: ordered queues are drained one event at a time -/

theorem walk_lanes_log (a : SchedArg) (i : Nat) :
    ∀ (j id : Nat) (g : Glob) (l : Local),
      (∀ x, ((walk_lanes a i j id g l).2.1.queues x).sync = (g.queues x).sync) ∧
      (∀ e, e ∈ (walk_lanes a i j id g l).2.1.deq_log →
        e ∈ g.deq_log ∨ ((g.queues e.1).sync = SyncClass.ordered → e.2 = 1)) := by
  intro j
  induction j with
  | zero =>
    intro id g l
    exact ⟨fun x => rfl, fun e he => Or.inl he⟩
  | succ j ih =>
    intro id g l
    simp only [walk_lanes]
    set idn := if id ≥ 4 then 0 else id with hidn
    by_cases hmask : g.pri_mask i &&& (1 <<< idn) = 0
    · rw [if_pos hmask]
      exact ih (idn + 1) g l
    · rw [if_neg hmask]
      cases hl : g.lanes i idn with
      | nil => exact ih (idn + 1) g l
      | cons ev rest =>
        cases ev with
        | pollPktin pktio prio =>
          dsimp only
          by_cases hpoll : a.poll_res pktio = true
          · rw [if_pos hpoll]
            exact ih (idn + 1) _ l
          · rw [if_neg hpoll]
            exact ih (idn + 1) _ l
        | deq qid =>
          dsimp only
          by_cases hgrp : ((set_lane g i idn rest).queues qid).group > 0 ∧
              ((set_lane g i idn rest).grp ((set_lane g i idn rest).queues qid).group).testBit a.thr = false
          · rw [if_pos hgrp]
            exact ih (idn + 1) _ l
          · rw [if_neg hgrp]
            by_cases hord : ((set_lane g i idn rest).queues qid).sync = SyncClass.ordered
            · rw [if_pos hord]
              by_cases hdes : ((set_lane g i idn rest).queues qid).destroyed = true
              · rw [if_pos hdes]
                obtain ⟨ihs, ihl⟩ := ih (idn + 1)
                  { set_lane g i idn rest with
                    deq_log := (set_lane g i idn rest).deq_log ++ [(qid, 1)] } l
                refine ⟨fun x => ihs x, fun e he => ?_⟩
                rcases ihl e he with hin | hp
                · simp only [List.mem_append, List.mem_singleton] at hin
                  rcases hin with hin | hin
                  · exact Or.inl hin
                  · subst hin
                    exact Or.inr (fun _ => rfl)
                · exact Or.inr hp
              · rw [if_neg hdes]
                by_cases hz : min 1 ((set_lane g i idn rest).queues qid).content.length = 0
                · rw [if_pos hz]
                  obtain ⟨ihs, ihl⟩ := ih (idn + 1)
                    { set_lane g i idn rest with
                      deq_log := (set_lane g i idn rest).deq_log ++ [(qid, 1)] } l
                  refine ⟨fun x => ihs x, fun e he => ?_⟩
                  rcases ihl e he with hin | hp
                  · simp only [List.mem_append, List.mem_singleton] at hin
                    rcases hin with hin | hin
                    · exact Or.inl hin
                    · subst hin
                      exact Or.inr (fun _ => rfl)
                  · exact Or.inr hp
                · rw [if_neg hz, if_pos hord]
                  refine ⟨fun x => set_content_sync _ _ _ x, fun e he => ?_⟩
                  simp only [enq_lane_log, set_content_log] at he
                  simp only [List.mem_append, List.mem_singleton] at he
                  rcases he with hin | hin
                  · exact Or.inl hin
                  · subst hin
                    exact Or.inr (fun _ => rfl)
            · rw [if_neg hord]
              by_cases hdes : ((set_lane g i idn rest).queues qid).destroyed = true
              · rw [if_pos hdes]
                obtain ⟨ihs, ihl⟩ := ih (idn + 1)
                  { set_lane g i idn rest with
                    deq_log := (set_lane g i idn rest).deq_log ++ [(qid, a.max_deq)] } l
                refine ⟨fun x => ihs x, fun e he => ?_⟩
                rcases ihl e he with hin | hp
                · simp only [List.mem_append, List.mem_singleton] at hin
                  rcases hin with hin | hin
                  · exact Or.inl hin
                  · subst hin
                    exact Or.inr (fun hs => absurd hs hord)
                · exact Or.inr hp
              · rw [if_neg hdes]
                by_cases hz : min a.max_deq ((set_lane g i idn rest).queues qid).content.length = 0
                · rw [if_pos hz]
                  obtain ⟨ihs, ihl⟩ := ih (idn + 1)
                    { set_lane g i idn rest with
                      deq_log := (set_lane g i idn rest).deq_log ++ [(qid, a.max_deq)] } l
                  refine ⟨fun x => ihs x, fun e he => ?_⟩
                  rcases ihl e he with hin | hp
                  · simp only [List.mem_append, List.mem_singleton] at hin
                    rcases hin with hin | hin
                    · exact Or.inl hin
                    · subst hin
                      exact Or.inr (fun hs => absurd hs hord)
                  · exact Or.inr hp
                · rw [if_neg hz]
                  by_cases hat : ((set_lane g i idn rest).queues qid).sync = SyncClass.atomic
                  · rw [if_neg hord, if_pos hat]
                    refine ⟨fun x => set_content_sync _ _ _ x, fun e he => ?_⟩
                    simp only [set_content_log] at he
                    simp only [List.mem_append, List.mem_singleton] at he
                    rcases he with hin | hin
                    · exact Or.inl hin
                    · subst hin
                      exact Or.inr (fun hs => absurd hs hord)
                  · rw [if_neg hord, if_neg hat]
                    refine ⟨fun x => set_content_sync _ _ _ x, fun e he => ?_⟩
                    simp only [enq_lane_log, set_content_log] at he
                    simp only [List.mem_append, List.mem_singleton] at he
                    rcases he with hin | hin
                    · exact Or.inl hin
                    · subst hin
                      exact Or.inr (fun hs => absurd hs hord)

theorem walk_prios_log (a : SchedArg) :
    ∀ (rem i : Nat) (g : Glob) (l : Local),
      (∀ x, ((walk_prios a rem i g l).2.1.queues x).sync = (g.queues x).sync) ∧
      (∀ e, e ∈ (walk_prios a rem i g l).2.1.deq_log →
        e ∈ g.deq_log ∨ ((g.queues e.1).sync = SyncClass.ordered → e.2 = 1)) := by
  intro rem
  induction rem with
  | zero =>
    intro i g l
    exact ⟨fun x => rfl, fun e he => Or.inl he⟩
  | succ rem ih =>
    intro i g l
    simp only [walk_prios]
    by_cases hz : g.pri_mask i = 0
    · rw [if_pos hz]
      exact ih (i + 1) g l
    · rw [if_neg hz]
      obtain ⟨wls, wll⟩ := walk_lanes_log a i 4 (a.thr &&& 3) g l
      cases hw : walk_lanes a i 4 (a.thr &&& 3) g l with
      | mk r gl =>
        rw [hw] at wls wll
        cases r with
        | some res =>
          exact ⟨fun x => wls x, fun e he => wll e he⟩
        | none =>
          obtain ⟨ihs, ihl⟩ := ih (i + 1) gl.1 gl.2
          refine ⟨fun x => (ihs x).trans (wls x), fun e he => ?_⟩
          rcases ihl e he with hin | hp
          · rcases wll e hin with hin2 | hp2
            · exact Or.inl hin2
            · exact Or.inr hp2
          · exact Or.inr (fun hs => hp ((wls e.1).symm ▸ hs))

theorem release_context_log (rc : Int) (g : Glob) (l : Local) :
    (odp_schedule_release_context rc g l).1.deq_log = g.deq_log ∧
    (odp_schedule_release_context rc g l).1.queues = g.queues := by
  unfold odp_schedule_release_context odp_schedule_release_atomic
  cases horig : l.origin_qe with
  | some q => exact ⟨rfl, rfl⟩
  | none =>
    cases hat : l.atomic_hold with
    | none => exact ⟨rfl, rfl⟩
    | some t =>
      obtain ⟨p, id, ev⟩ := t
      dsimp only
      by_cases hn : l.num = 0
      · rw [if_pos hn]
        exact ⟨rfl, rfl⟩
      · rw [if_neg hn]
        exact ⟨rfl, rfl⟩

/-- C7: every `queue_deq_multi` request issued by a `schedule` invocation
on an ordered source queue asks for exactly 1 event (`max_deq` is forced
to 1), regardless of the `max_deq` argument. -/
theorem schedule_ordered_deq_one (a : SchedArg) (rc : Int) (nprio : Nat)
    (g : Glob) (l : Local) (hlog : g.deq_log = []) :
    ∀ e, e ∈ (schedule a rc nprio g l).2.1.deq_log →
      ((g.queues e.1).sync = SyncClass.ordered → e.2 = 1) := by
  intro e he
  simp only [schedule] at he
  by_cases hn : l.num ≠ 0
  · rw [if_pos hn] at he
    dsimp only at he
    rw [hlog] at he
    cases he
  · rw [if_neg hn] at he
    obtain ⟨hrl, hrq⟩ := release_context_log rc g l
    by_cases hp : (odp_schedule_release_context rc g l).2.pause = true
    · rw [if_pos hp] at he
      dsimp only at he
      rw [hrl, hlog] at he
      cases he
    · rw [if_neg hp] at he
      obtain ⟨wps, wpl⟩ := walk_prios_log a nprio 0
        (odp_schedule_release_context rc g l).1 (odp_schedule_release_context rc g l).2
      rcases wpl e he with hin | hprop
      · rw [hrl, hlog] at hin
        cases hin
      · intro hs
        apply hprop
        rw [hrq]
        exact hs

/-- Concrete global state for the C7 witness: one ordered queue (id 5,
two events) on lane 0 of priority 0. -/
def c7_glob : Glob :=
  ⟨fun p => if p = 0 then 1 else 0, fun _ _ => 0,
   fun p d => if p = 0 ∧ d = 0 then [Cmd.deq 5] else [],
   fun x => if x = 5 then ⟨0, .ordered, 0, false, [⟨42, 0, []⟩, ⟨43, 1, []⟩]⟩
     else ⟨0, .parallel, 0, false, []⟩,
   fun _ => 0, []⟩

/-- Empty-context thread-local state for dispatcher witnesses. -/
def w_local : Local :=
  ⟨none, [], 0, none, 0, fun _ => 0, false, 0, 0, false, false⟩

/-- Witness for C7: with `max_deq = 4`, dispatching the ordered queue 5
logs a request of exactly 1. -/
theorem schedule_ordered_deq_one_witness :
    c7_glob.deq_log = [] ∧
    (schedule ⟨fun _ => false, 0, true, 4, 4⟩ 0 1 c7_glob w_local).2.1.deq_log =
      [(5, 1)] ∧
    ((5, 1) ∈ (schedule ⟨fun _ => false, 0, true, 4, 4⟩ 0 1 c7_glob w_local).2.1.deq_log) ∧
    ((c7_glob.queues (5, 1).1).sync = SyncClass.ordered → ((5 : Nat), (1 : Nat)).2 = 1) :=
  ⟨rfl, by decide, by decide,
   schedule_ordered_deq_one ⟨fun _ => false, 0, true, 4, 4⟩ 0 1 c7_glob w_local rfl
     (5, 1) (by decide)⟩

/-! ### C6: group eligibility -/

theorem set_lane_lanes_at (g : Glob) (i id : Nat) (L : List Cmd) (p d : Nat) :
    (set_lane g i id L).lanes p d = if p = i ∧ d = id then L else g.lanes p d := rfl

theorem count_after_reenq (g : Glob) (i id : Nat) (ev : Cmd) (rest : List Cmd)
    (c : Cmd) (h : g.lanes i id = ev :: rest)
    (L : Nat → Nat → List Cmd)
    (hL : ∀ p d, L p d = if p = i ∧ d = id then (set_lane g i id rest).lanes p d ++ [ev]
      else (set_lane g i id rest).lanes p d) (p d : Nat) :
    (L p d).count c = (g.lanes p d).count c := by
  rw [hL, set_lane_lanes_at]
  by_cases hp : p = i ∧ d = id
  · rw [if_pos hp, if_pos hp]
    obtain ⟨h1, h2⟩ := hp
    subst h1; subst h2
    rw [h]
    simp [List.count_append, List.count_cons]
  · rw [if_neg hp, if_neg hp]

theorem count_after_drop (g : Glob) (i id : Nat) (ev : Cmd) (rest : List Cmd)
    (c : Cmd) (h : g.lanes i id = ev :: rest) (hne : ev ≠ c)
    (L : Nat → Nat → List Cmd)
    (hL : ∀ p d, L p d = (set_lane g i id rest).lanes p d) (p d : Nat) :
    (L p d).count c = (g.lanes p d).count c := by
  rw [hL, set_lane_lanes_at]
  by_cases hp : p = i ∧ d = id
  · rw [if_pos hp]
    obtain ⟨h1, h2⟩ := hp
    subst h1; subst h2
    rw [h]
    simp [List.count_cons, hne]
  · rw [if_neg hp]

theorem walk_lanes_inel (a : SchedArg) (i q : Nat) :
    ∀ (j id : Nat) (g : Glob) (l : Local),
      (g.queues q).group > 0 →
      (g.grp ((g.queues q).group)).testBit a.thr = false →
      (((walk_lanes a i j id g l).2.1.queues q).content = (g.queues q).content ∧
       ((walk_lanes a i j id g l).2.1.queues q).group = (g.queues q).group ∧
       (walk_lanes a i j id g l).2.1.grp = g.grp ∧
       (∀ p d, ((walk_lanes a i j id g l).2.1.lanes p d).count (Cmd.deq q) =
         (g.lanes p d).count (Cmd.deq q)) ∧
       (∀ res, (walk_lanes a i j id g l).1 = some res → res.src ≠ some q)) := by
  intro j
  induction j with
  | zero =>
    intro id g l _ _
    exact ⟨rfl, rfl, rfl, fun p d => rfl, fun res hres => by cases hres⟩
  | succ j ih =>
    intro id g l hg hm
    simp only [walk_lanes]
    set idn := if id ≥ 4 then 0 else id with hidn
    by_cases hmask : g.pri_mask i &&& (1 <<< idn) = 0
    · rw [if_pos hmask]
      exact ih (idn + 1) g l hg hm
    · rw [if_neg hmask]
      cases hl : g.lanes i idn with
      | nil => exact ih (idn + 1) g l hg hm
      | cons ev rest =>
        cases ev with
        | pollPktin pktio prio =>
          dsimp only
          by_cases hpoll : a.poll_res pktio = true
          · rw [if_pos hpoll]
            obtain ⟨ihc, ihg, ihr, ihn, ihs⟩ :=
              ih (idn + 1) (pri_clr_g (set_lane g i idn rest) (pktio &&& 3) prio) l hg hm
            refine ⟨ihc, ihg, ihr, fun p d => ?_, ihs⟩
            rw [ihn p d]
            exact count_after_drop g i idn _ rest _ hl (fun he => Cmd.noConfusion he)
              _ (fun p d => rfl) p d
          · rw [if_neg hpoll]
            obtain ⟨ihc, ihg, ihr, ihn, ihs⟩ :=
              ih (idn + 1) (enq_lane (set_lane g i idn rest) i idn (.pollPktin pktio prio)) l hg hm
            refine ⟨ihc, ihg, ihr, fun p d => ?_, ihs⟩
            rw [ihn p d]
            exact count_after_reenq g i idn _ rest _ hl _ (fun p d => rfl) p d
        | deq qid =>
          dsimp only
          by_cases hgrp : ((set_lane g i idn rest).queues qid).group > 0 ∧
              ((set_lane g i idn rest).grp ((set_lane g i idn rest).queues qid).group).testBit a.thr = false
          · rw [if_pos hgrp]
            obtain ⟨ihc, ihg, ihr, ihn, ihs⟩ :=
              ih (idn + 1) (enq_lane (set_lane g i idn rest) i idn (.deq qid)) l hg hm
            refine ⟨ihc, ihg, ihr, fun p d => ?_, ihs⟩
            rw [ihn p d]
            exact count_after_reenq g i idn _ rest _ hl _ (fun p d => rfl) p d
          · rw [if_neg hgrp]
            have hne : qid ≠ q := by
              intro he
              subst he
              exact hgrp ⟨hg, hm⟩
            have hnec : Cmd.deq qid ≠ Cmd.deq q := by
              intro he
              injection he with he2
              exact hne he2
            by_cases hord : ((set_lane g i idn rest).queues qid).sync = SyncClass.ordered
            · rw [if_pos hord]
              by_cases hdes : ((set_lane g i idn rest).queues qid).destroyed = true
              · rw [if_pos hdes]
                obtain ⟨ihc, ihg, ihr, ihn, ihs⟩ := ih (idn + 1)
                  { set_lane g i idn rest with
                    deq_log := (set_lane g i idn rest).deq_log ++ [(qid, 1)] } l hg hm
                refine ⟨ihc, ihg, ihr, fun p d => ?_, ihs⟩
                rw [ihn p d]
                exact count_after_drop g i idn _ rest _ hl hnec _ (fun p d => rfl) p d
              · rw [if_neg hdes]
                by_cases hz : min 1 ((set_lane g i idn rest).queues qid).content.length = 0
                · rw [if_pos hz]
                  obtain ⟨ihc, ihg, ihr, ihn, ihs⟩ := ih (idn + 1)
                    { set_lane g i idn rest with
                      deq_log := (set_lane g i idn rest).deq_log ++ [(qid, 1)] } l hg hm
                  refine ⟨ihc, ihg, ihr, fun p d => ?_, ihs⟩
                  rw [ihn p d]
                  exact count_after_drop g i idn _ rest _ hl hnec _ (fun p d => rfl) p d
                · rw [if_neg hz, if_pos hord]
                  refine ⟨set_content_content_ne _ _ _ q (fun he => hne he.symm),
                    set_content_group _ _ _ q, rfl, fun p d => ?_, fun res hres => ?_⟩
                  · exact count_after_reenq g i idn _ rest _ hl _ (fun p d => rfl) p d
                  · cases hres
                    cases hw : a.want_src <;> simp [hw, hne]
            · rw [if_neg hord]
              by_cases hdes : ((set_lane g i idn rest).queues qid).destroyed = true
              · rw [if_pos hdes]
                obtain ⟨ihc, ihg, ihr, ihn, ihs⟩ := ih (idn + 1)
                  { set_lane g i idn rest with
                    deq_log := (set_lane g i idn rest).deq_log ++ [(qid, a.max_deq)] } l hg hm
                refine ⟨ihc, ihg, ihr, fun p d => ?_, ihs⟩
                rw [ihn p d]
                exact count_after_drop g i idn _ rest _ hl hnec _ (fun p d => rfl) p d
              · rw [if_neg hdes]
                by_cases hz : min a.max_deq ((set_lane g i idn rest).queues qid).content.length = 0
                · rw [if_pos hz]
                  obtain ⟨ihc, ihg, ihr, ihn, ihs⟩ := ih (idn + 1)
                    { set_lane g i idn rest with
                      deq_log := (set_lane g i idn rest).deq_log ++ [(qid, a.max_deq)] } l hg hm
                  refine ⟨ihc, ihg, ihr, fun p d => ?_, ihs⟩
                  rw [ihn p d]
                  exact count_after_drop g i idn _ rest _ hl hnec _ (fun p d => rfl) p d
                · rw [if_neg hz]
                  by_cases hat : ((set_lane g i idn rest).queues qid).sync = SyncClass.atomic
                  · rw [if_neg hord, if_pos hat]
                    refine ⟨set_content_content_ne _ _ _ q (fun he => hne he.symm),
                      set_content_group _ _ _ q, rfl, fun p d => ?_, fun res hres => ?_⟩
                    · exact count_after_drop g i idn _ rest _ hl hnec _ (fun p d => rfl) p d
                    · cases hres
                      cases hw : a.want_src <;> simp [hw, hne]
                  · rw [if_neg hord, if_neg hat]
                    refine ⟨set_content_content_ne _ _ _ q (fun he => hne he.symm),
                      set_content_group _ _ _ q, rfl, fun p d => ?_, fun res hres => ?_⟩
                    · exact count_after_reenq g i idn _ rest _ hl _ (fun p d => rfl) p d
                    · cases hres
                      cases hw : a.want_src <;> simp [hw, hne]

theorem walk_prios_inel (a : SchedArg) (q : Nat) :
    ∀ (rem i : Nat) (g : Glob) (l : Local),
      (g.queues q).group > 0 →
      (g.grp ((g.queues q).group)).testBit a.thr = false →
      (((walk_prios a rem i g l).2.1.queues q).content = (g.queues q).content ∧
       (∀ p d, ((walk_prios a rem i g l).2.1.lanes p d).count (Cmd.deq q) =
         (g.lanes p d).count (Cmd.deq q)) ∧
       ((walk_prios a rem i g l).1.src ≠ some q)) := by
  intro rem
  induction rem with
  | zero =>
    intro i g l _ _
    exact ⟨rfl, fun p d => rfl, by simp [walk_prios]⟩
  | succ rem ih =>
    intro i g l hg hm
    simp only [walk_prios]
    by_cases hz : g.pri_mask i = 0
    · rw [if_pos hz]
      exact ih (i + 1) g l hg hm
    · rw [if_neg hz]
      obtain ⟨wc, wg, wr, wn, ws⟩ := walk_lanes_inel a i q 4 (a.thr &&& 3) g l hg hm
      cases hw : walk_lanes a i 4 (a.thr &&& 3) g l with
      | mk r gl =>
        rw [hw] at wc wg wr wn ws
        cases r with
        | some res =>
          exact ⟨wc, wn, ws res rfl⟩
        | none =>
          obtain ⟨ic, icn, isrc⟩ := ih (i + 1) gl.1 gl.2
            (by rw [wg]; exact hg) (by rw [wr, wg]; exact hm)
          refine ⟨ic.trans wc, fun p d => (icn p d).trans (wn p d), isrc⟩

theorem release_context_glob_eq (rc : Int) (g : Glob) (l : Local)
    (hatom : l.atomic_hold = none) :
    (odp_schedule_release_context rc g l).1 = g := by
  unfold odp_schedule_release_context odp_schedule_release_atomic
  cases horig : l.origin_qe with
  | some _ => rfl
  | none =>
    dsimp only
    rw [hatom]

/-- C6: a thread whose id is not set in `grp[g].mask` never receives
events from a queue `q` of group `g > ALL`: a `schedule` call entered with
an empty local cache and no held atomic context leaves `q`'s content
untouched (never drains it), preserves the number of `q`'s command tokens
on every lane (the dequeued token is re-enqueued onto the same lane and
the walk continues), and never reports `q` as the source of returned
events. -/
theorem schedule_group_eligibility (a : SchedArg) (rc : Int) (nprio : Nat)
    (g : Glob) (l : Local) (q p d : Nat)
    (hnum : l.num = 0) (hatom : l.atomic_hold = none)
    (hgrp : (g.queues q).group > 0)
    (hmask : (g.grp ((g.queues q).group)).testBit a.thr = false) :
    ((schedule a rc nprio g l).2.1.queues q).content = (g.queues q).content ∧
    ((schedule a rc nprio g l).2.1.lanes p d).count (Cmd.deq q) =
      (g.lanes p d).count (Cmd.deq q) ∧
    (schedule a rc nprio g l).1.src ≠ some q := by
  have hnn : ¬ l.num ≠ 0 := by omega
  simp only [schedule, if_neg hnn]
  have hge := release_context_glob_eq rc g l hatom
  by_cases hp : (odp_schedule_release_context rc g l).2.pause = true
  · rw [if_pos hp]
    dsimp only
    rw [hge]
    exact ⟨rfl, rfl, by simp⟩
  · rw [if_neg hp]
    rw [hge]
    obtain ⟨wc, wn, ws⟩ := walk_prios_inel a q nprio 0 g
      (odp_schedule_release_context rc g l).2 hgrp hmask
    exact ⟨wc, wn p d, ws⟩

/-- Concrete global state for the C6 witness: queue 7 has group 1, the
group mask is empty, and queue 7's token sits on lane 0 of priority 0. -/
def c6_glob : Glob :=
  ⟨fun p => if p = 0 then 1 else 0, fun _ _ => 0,
   fun p d => if p = 0 ∧ d = 0 then [Cmd.deq 7] else [],
   fun x => if x = 7 then ⟨1, .parallel, 0, false, [⟨42, 0, []⟩]⟩
     else ⟨0, .parallel, 0, false, []⟩,
   fun _ => 0, []⟩

/-- Witness for C6: thread 0 is not in group 1's (empty) mask; the call
leaves queue 7's one event in place, keeps its token count on lane (0,0)
at 1, and reports no source. -/
theorem schedule_group_eligibility_witness :
    w_local.num = 0 ∧ w_local.atomic_hold = none ∧
    (c6_glob.queues 7).group > 0 ∧
    (c6_glob.grp ((c6_glob.queues 7).group)).testBit 0 = false ∧
    (((schedule ⟨fun _ => false, 0, true, 4, 4⟩ 0 1 c6_glob w_local).2.1.queues 7).content =
        (c6_glob.queues 7).content ∧
      ((schedule ⟨fun _ => false, 0, true, 4, 4⟩ 0 1 c6_glob w_local).2.1.lanes 0 0).count
          (Cmd.deq 7) = (c6_glob.lanes 0 0).count (Cmd.deq 7) ∧
      (schedule ⟨fun _ => false, 0, true, 4, 4⟩ 0 1 c6_glob w_local).1.src ≠ some 7) :=
  ⟨rfl, rfl, by decide, by decide,
   schedule_group_eligibility ⟨fun _ => false, 0, true, 4, 4⟩ 0 1 c6_glob w_local 7 0 0
     rfl rfl (by decide) (by decide)⟩

end OdpSched
